import Mathlib

/-!
Verification of the `stable_bst` ordered-tree library (map and set façades over a
comparator-parameterized binary search tree).  The repository ships only the
trait-implementation surface (`BitOr` for `TreeSet`, `Index` for `TreeMap`,
`Extend` and `Default` for both); the tree engine itself is reconstructed here
from the design specification, as a shallow embedding.
-/

set_option maxHeartbeats 1000000

namespace StableBst

universe u v w

/-- A comparator: a pluggable total-order relation over keys, returning
`Ordering.lt`, `Ordering.eq` or `Ordering.gt`. -/
abbrev Cmp (K : Type u) : Type u := K → K → Ordering

/-- Lawfulness of a homogeneous comparator: it is a total order in the sense of
the spec ("pluggable total-order relation"). `symm` orients the comparison,
`lt_trans` is transitivity of the strict order, and `eq_congr` says keys that
compare equal are indistinguishable to the comparator. -/
structure IsComparator {K : Type u} (cmp : Cmp K) : Prop where
  symm : ∀ a b, cmp a b = (cmp b a).swap
  lt_trans : ∀ a b c, cmp a b = Ordering.lt → cmp b c = Ordering.lt →
    cmp a c = Ordering.lt
  eq_congr : ∀ a b c, cmp a b = Ordering.eq → cmp a c = cmp b c

/-- Compatibility of a heterogeneous query comparator `cmpQ : Q → K → Ordering`
with the key comparator `cmp : K → K → Ordering` (the spec's "comparator may
additionally support comparing a key against a different query type"). -/
structure HetCompat {K : Type u} {Q : Type w} (cmp : Cmp K)
    (cmpQ : Q → K → Ordering) : Prop where
  lt_lt : ∀ (q : Q) (a b : K), cmpQ q a = Ordering.lt → cmp a b = Ordering.lt →
    cmpQ q b = Ordering.lt
  lt_gt : ∀ (q : Q) (a b : K), cmp a b = Ordering.lt → cmpQ q b = Ordering.gt →
    cmpQ q a = Ordering.gt
  eq_lt : ∀ (q : Q) (a b : K), cmpQ q a = Ordering.eq → cmp a b = Ordering.lt →
    cmpQ q b = Ordering.lt
  lt_eq : ∀ (q : Q) (a b : K), cmp a b = Ordering.lt → cmpQ q b = Ordering.eq →
    cmpQ q a = Ordering.gt

variable {K : Type u} {V : Type v} {Q : Type w}

theorem IsComparator.refl {cmp : Cmp K} (hc : IsComparator cmp) (a : K) :
    cmp a a = Ordering.eq := by
  have h := hc.symm a a
  cases hh : cmp a a
  · rw [hh] at h; simp [Ordering.swap] at h
  · rfl
  · rw [hh] at h; simp [Ordering.swap] at h

theorem IsComparator.gt_iff {cmp : Cmp K} (hc : IsComparator cmp) (a b : K) :
    cmp a b = Ordering.gt ↔ cmp b a = Ordering.lt := by
  have h := hc.symm a b
  cases hh : cmp b a <;> rw [hh] at h <;> simp [Ordering.swap] at h <;> simp_all

theorem IsComparator.eq_symm {cmp : Cmp K} (hc : IsComparator cmp) {a b : K}
    (h : cmp a b = Ordering.eq) : cmp b a = Ordering.eq := by
  have hs := hc.symm b a
  rw [hs, h]; rfl

/-- Right congruence: keys comparing equal are interchangeable on the right. -/
theorem IsComparator.eq_congr_right {cmp : Cmp K} (hc : IsComparator cmp)
    {a b : K} (h : cmp a b = Ordering.eq) (c : K) : cmp c a = cmp c b := by
  rw [hc.symm c a, hc.symm c b, hc.eq_congr a b c h]

/-- A lawful homogeneous comparator is compatible with itself as a query
comparator: homogeneous lookup is the degenerate case of heterogeneous. -/
theorem IsComparator.toHetCompat {cmp : Cmp K} (hc : IsComparator cmp) :
    HetCompat cmp cmp where
  lt_lt := fun q a b h1 h2 => hc.lt_trans q a b h1 h2
  lt_gt := fun q a b h1 h2 => by
    rw [hc.gt_iff] at h2 ⊢
    exact hc.lt_trans a b q h1 h2
  eq_lt := fun q a b h1 h2 => by rw [hc.eq_congr q a b h1]; exact h2
  lt_eq := fun q a b h1 h2 => by
    rw [hc.eq_congr q b a h2, hc.gt_iff]
    exact h1

/-- The node tree underlying both the map and the set façade.  A node holds one
key, one value (the set façade stores `Unit`), and owns its two subtrees.
Modelled from the spec: the `stable_bst` engine source is not in the
repository; §3 of the spec fixes this data model ("holds one key, optionally
one value, and ownership of left/right child subtrees").  Balance metadata is
omitted because the balancing discipline is explicitly unobservable (§9) and no
claim depends on tree shape. -/
inductive Tree (K : Type u) (V : Type v) where
  | leaf
  | node (left : Tree K V) (key : K) (value : V) (right : Tree K V)

/-- In-order traversal of the tree as an association list. -/
def Tree.toList : Tree K V → List (K × V)
  | .leaf => []
  | .node l k v r => Tree.toList l ++ (k, v) :: Tree.toList r

/-- The keys of the tree, in in-order traversal order. -/
def Tree.keys (t : Tree K V) : List K :=
  t.toList.map Prod.fst

/-- Number of entries stored in the tree. -/
def Tree.size : Tree K V → Nat
  | .leaf => 0
  | .node l _ _ r => Tree.size l + Tree.size r + 1

/-- Modelled from the spec: `find` is absent from src; §4.1 specifies an
O(log n) comparator-driven descent returning an optional value, supporting a
heterogeneous query type `Q`. -/
def Tree.find (cmpQ : Q → K → Ordering) : Tree K V → Q → Option V
  | .leaf, _ => none
  | .node l k v r, q =>
    match cmpQ q k with
    | .lt => Tree.find cmpQ l q
    | .eq => some v
    | .gt => Tree.find cmpQ r q

/-- Modelled from the spec: `insert` is absent from src; §4.1 specifies a
descent that creates a node if the key is absent, replaces the value if
present, and returns the previous value. -/
def Tree.insert (cmp : Cmp K) : Tree K V → K → V → Option V × Tree K V
  | .leaf, k, v => (none, .node .leaf k v .leaf)
  | .node l k0 v0 r, k, v =>
    match cmp k k0 with
    | .lt =>
      let p := Tree.insert cmp l k v
      (p.1, .node p.2 k0 v0 r)
    | .eq => (some v0, .node l k v r)
    | .gt =>
      let p := Tree.insert cmp r k v
      (p.1, .node l k0 v0 p.2)

/-- Splice out the least entry of a tree, returning it with the remainder. -/
def Tree.removeMin : Tree K V → Option (K × V × Tree K V)
  | .leaf => none
  | .node l k v r =>
    match Tree.removeMin l with
    | some (k0, v0, l2) => some (k0, v0, .node l2 k v r)
    | none => some (k, v, r)

/-- Join the two subtrees of a deleted node by promoting the successor
(least key of the right subtree), the spec's "successor splice". -/
def Tree.glue (l r : Tree K V) : Tree K V :=
  match Tree.removeMin r with
  | none => l
  | some (k, v, r2) => .node l k v r2

/-- Modelled from the spec: `remove` is absent from src; §4.1 specifies
standard BST deletion (successor splice when the node has two children),
returning the removed value and failing silently when the key is absent. -/
def Tree.remove (cmpQ : Q → K → Ordering) : Tree K V → Q → Option V × Tree K V
  | .leaf, _ => (none, .leaf)
  | .node l k v r, q =>
    match cmpQ q k with
    | .lt =>
      let p := Tree.remove cmpQ l q
      (p.1, .node p.2 k v r)
    | .eq => (some v, Tree.glue l r)
    | .gt =>
      let p := Tree.remove cmpQ r q
      (p.1, .node l k v p.2)

/-- Modelled from the spec and the `Extend` impl signatures in
src/unnamed/part_001: `extend` bulk-inserts each element via repeated
`insert`, in sequence order. -/
def Tree.extend (cmp : Cmp K) : Tree K V → List (K × V) → Tree K V
  | t, [] => t
  | t, e :: es => Tree.extend cmp (Tree.insert cmp t e.1 e.2).2 es

/-- Remove each key of a list in turn. -/
def Tree.removeAll (cmp : Cmp K) : Tree K V → List K → Tree K V
  | t, [] => t
  | t, k :: ks => Tree.removeAll cmp (Tree.remove cmp t k).2 ks

/-- Modelled from the spec: `clear` empties the tree. -/
def Tree.clear (_t : Tree K V) : Tree K V := .leaf

/-- A single mutation applied to the tree: an insertion or a removal. -/
inductive Op (K : Type u) (V : Type v) where
  | ins (k : K) (v : V)
  | del (k : K)

/-- Apply one mutation. -/
def Tree.applyOp (cmp : Cmp K) (t : Tree K V) : Op K V → Tree K V
  | .ins k v => (Tree.insert cmp t k v).2
  | .del k => (Tree.remove cmp t k).2

/-- Apply a sequence of mutations, left to right. -/
def Tree.applyOps (cmp : Cmp K) (t : Tree K V) (ops : List (Op K V)) : Tree K V :=
  ops.foldl (Tree.applyOp cmp) t

/-- The binary-search-tree ordering invariant (spec §3): at every node, all
keys of the left subtree compare less than the node's key, and the node's key
compares less than all keys of the right subtree. -/
inductive BST (cmp : Cmp K) : Tree K V → Prop where
  | leaf : BST cmp .leaf
  | node {l : Tree K V} {k : K} {v : V} {r : Tree K V} :
      BST cmp l → BST cmp r →
      (∀ x ∈ Tree.keys l, cmp x k = Ordering.lt) →
      (∀ x ∈ Tree.keys r, cmp k x = Ordering.lt) →
      BST cmp (.node l k v r)

theorem Tree.keys_leaf : (Tree.leaf : Tree K V).keys = [] := rfl

theorem Tree.keys_node (l : Tree K V) (k : K) (v : V) (r : Tree K V) :
    (Tree.node l k v r).keys = l.keys ++ k :: r.keys := by
  simp [Tree.keys, Tree.toList]

theorem Tree.size_eq_length (t : Tree K V) : t.size = t.toList.length := by
  induction t with
  | leaf => rfl
  | node l k v r ihl ihr => simp [Tree.size, Tree.toList, ihl, ihr]; omega

theorem Tree.toList_eq_nil {t : Tree K V} (h : t.toList = []) : t = .leaf := by
  cases t with
  | leaf => rfl
  | node l k v r => simp [Tree.toList] at h

theorem Tree.mem_keys_node {l r : Tree K V} {k : K} {v : V} {x : K} :
    x ∈ (Tree.node l k v r).keys ↔ x ∈ l.keys ∨ x = k ∨ x ∈ r.keys := by
  simp [Tree.keys_node]

theorem Tree.mem_keys_of_mem_toList {t : Tree K V} {k : K} {v : V}
    (h : (k, v) ∈ t.toList) : k ∈ t.keys :=
  List.mem_map.mpr ⟨(k, v), h, rfl⟩

theorem Tree.exists_val_of_mem_keys {t : Tree K V} {k : K} (h : k ∈ t.keys) :
    ∃ v, (k, v) ∈ t.toList := by
  rcases List.mem_map.mp h with ⟨⟨k1, v1⟩, hm, he⟩
  have he2 : k1 = k := he
  subst he2
  exact ⟨v1, hm⟩

/-- Characterization of `find` on a well-formed tree, for a compatible
(possibly heterogeneous) query comparator: it returns exactly the value whose
key compares equal to the query. -/
theorem Tree.find_eq_some_iff {cmp : Cmp K} {cmpQ : Q → K → Ordering}
    (hh : HetCompat cmp cmpQ) {t : Tree K V} (ht : BST cmp t) (q : Q) (v : V) :
    Tree.find cmpQ t q = some v ↔
      ∃ k, (k, v) ∈ t.toList ∧ cmpQ q k = Ordering.eq := by
  induction ht with
  | leaf => simp [Tree.find, Tree.toList]
  | @node l k0 v0 r hl hr hkl hkr ihl ihr =>
    cases hcmp : cmpQ q k0 with
    | lt =>
      rw [show Tree.find cmpQ (Tree.node l k0 v0 r) q = Tree.find cmpQ l q by
        simp [Tree.find, hcmp]]
      rw [ihl]
      constructor
      · rintro ⟨k, hk, he⟩
        exact ⟨k, by simp [Tree.toList]; exact Or.inl hk, he⟩
      · rintro ⟨k, hk, he⟩
        simp [Tree.toList] at hk
        rcases hk with hk | ⟨hk1, hk2⟩ | hk
        · exact ⟨k, hk, he⟩
        · subst hk1; rw [hcmp] at he; cases he
        · have hq := hh.lt_lt q k0 k hcmp (hkr k (Tree.mem_keys_of_mem_toList hk))
          rw [hq] at he; cases he
    | eq =>
      rw [show Tree.find cmpQ (Tree.node l k0 v0 r) q = some v0 by
        simp [Tree.find, hcmp]]
      constructor
      · intro h
        injection h with h
        subst h
        exact ⟨k0, by simp [Tree.toList], hcmp⟩
      · rintro ⟨k, hk, he⟩
        simp [Tree.toList] at hk
        rcases hk with hk | ⟨hk1, hk2⟩ | hk
        · have hlt := hkl k (Tree.mem_keys_of_mem_toList hk)
          have := hh.eq_lt q k k0 he hlt
          rw [hcmp] at this; cases this
        · rw [hk2]
        · have hgt := hkr k (Tree.mem_keys_of_mem_toList hk)
          have := hh.lt_eq q k0 k hgt he
          rw [hcmp] at this; cases this
    | gt =>
      rw [show Tree.find cmpQ (Tree.node l k0 v0 r) q = Tree.find cmpQ r q by
        simp [Tree.find, hcmp]]
      rw [ihr]
      constructor
      · rintro ⟨k, hk, he⟩
        exact ⟨k, by simp [Tree.toList]; exact Or.inr (Or.inr hk), he⟩
      · rintro ⟨k, hk, he⟩
        simp [Tree.toList] at hk
        rcases hk with hk | ⟨hk1, hk2⟩ | hk
        · have hlt := hkl k (Tree.mem_keys_of_mem_toList hk)
          have := hh.lt_gt q k k0 hlt hcmp
          rw [this] at he; cases he
        · subst hk1; rw [hcmp] at he; cases he
        · exact ⟨k, hk, he⟩

theorem Tree.find_isSome_iff {cmp : Cmp K} {cmpQ : Q → K → Ordering}
    (hh : HetCompat cmp cmpQ) {t : Tree K V} (ht : BST cmp t) (q : Q) :
    (Tree.find cmpQ t q).isSome = true ↔
      ∃ k ∈ t.keys, cmpQ q k = Ordering.eq := by
  constructor
  · intro h
    rcases Option.isSome_iff_exists.mp h with ⟨v, hv⟩
    rcases (Tree.find_eq_some_iff hh ht q v).mp hv with ⟨k, hk, he⟩
    exact ⟨k, Tree.mem_keys_of_mem_toList hk, he⟩
  · rintro ⟨k, hk, he⟩
    rcases Tree.exists_val_of_mem_keys hk with ⟨v, hv⟩
    rw [(Tree.find_eq_some_iff hh ht q v).mpr ⟨k, hv, he⟩]
    rfl

theorem Tree.find_eq_none_iff {cmp : Cmp K} {cmpQ : Q → K → Ordering}
    (hh : HetCompat cmp cmpQ) {t : Tree K V} (ht : BST cmp t) (q : Q) :
    Tree.find cmpQ t q = none ↔ ∀ k ∈ t.keys, cmpQ q k ≠ Ordering.eq := by
  rw [← Option.not_isSome_iff_eq_none, Tree.find_isSome_iff hh ht q]
  push_neg
  rfl

theorem Tree.insert_fst_eq_find (cmp : Cmp K) (t : Tree K V) (k : K) (v : V) :
    (Tree.insert cmp t k v).1 = Tree.find cmp t k := by
  induction t with
  | leaf => simp [Tree.insert, Tree.find]
  | node l k0 v0 r ihl ihr =>
    cases hcmp : cmp k k0 <;> simp [Tree.insert, Tree.find, hcmp, ihl, ihr]

theorem Tree.keys_insert_sub {cmp : Cmp K} {t : Tree K V} {k : K} {v : V} :
    ∀ x ∈ (Tree.insert cmp t k v).2.keys, x ∈ t.keys ∨ x = k := by
  induction t with
  | leaf =>
    intro x hx
    simp [Tree.insert, Tree.keys, Tree.toList] at hx
    exact Or.inr hx
  | node l k0 v0 r ihl ihr =>
    intro x hx
    cases hcmp : cmp k k0 with
    | lt =>
      rw [show (Tree.insert cmp (Tree.node l k0 v0 r) k v).2
          = Tree.node (Tree.insert cmp l k v).2 k0 v0 r by
        simp [Tree.insert, hcmp]] at hx
      rw [Tree.mem_keys_node] at hx
      rcases hx with hx | hx | hx
      · rcases ihl x hx with h | h
        · exact Or.inl (Tree.mem_keys_node.mpr (Or.inl h))
        · exact Or.inr h
      · exact Or.inl (Tree.mem_keys_node.mpr (Or.inr (Or.inl hx)))
      · exact Or.inl (Tree.mem_keys_node.mpr (Or.inr (Or.inr hx)))
    | eq =>
      rw [show (Tree.insert cmp (Tree.node l k0 v0 r) k v).2
          = Tree.node l k v r by simp [Tree.insert, hcmp]] at hx
      rw [Tree.mem_keys_node] at hx
      rcases hx with hx | hx | hx
      · exact Or.inl (Tree.mem_keys_node.mpr (Or.inl hx))
      · exact Or.inr hx
      · exact Or.inl (Tree.mem_keys_node.mpr (Or.inr (Or.inr hx)))
    | gt =>
      rw [show (Tree.insert cmp (Tree.node l k0 v0 r) k v).2
          = Tree.node l k0 v0 (Tree.insert cmp r k v).2 by
        simp [Tree.insert, hcmp]] at hx
      rw [Tree.mem_keys_node] at hx
      rcases hx with hx | hx | hx
      · exact Or.inl (Tree.mem_keys_node.mpr (Or.inl hx))
      · exact Or.inl (Tree.mem_keys_node.mpr (Or.inr (Or.inl hx)))
      · rcases ihr x hx with h | h
        · exact Or.inl (Tree.mem_keys_node.mpr (Or.inr (Or.inr h)))
        · exact Or.inr h

/-- `insert` preserves the ordering invariant. -/
theorem Tree.bst_insert {cmp : Cmp K} (hc : IsComparator cmp) {t : Tree K V}
    (ht : BST cmp t) (k : K) (v : V) : BST cmp (Tree.insert cmp t k v).2 := by
  induction ht with
  | leaf =>
    exact BST.node BST.leaf BST.leaf
      (by intro x hx; simp [Tree.keys, Tree.toList] at hx)
      (by intro x hx; simp [Tree.keys, Tree.toList] at hx)
  | @node l k0 v0 r hl hr hkl hkr ihl ihr =>
    cases hcmp : cmp k k0 with
    | lt =>
      rw [show (Tree.insert cmp (Tree.node l k0 v0 r) k v).2
          = Tree.node (Tree.insert cmp l k v).2 k0 v0 r by
        simp [Tree.insert, hcmp]]
      refine BST.node ihl hr ?_ hkr
      intro x hx
      rcases Tree.keys_insert_sub x hx with h | h
      · exact hkl x h
      · rw [h]; exact hcmp
    | eq =>
      rw [show (Tree.insert cmp (Tree.node l k0 v0 r) k v).2
          = Tree.node l k v r by simp [Tree.insert, hcmp]]
      refine BST.node hl hr ?_ ?_
      · intro x hx
        rw [hc.eq_congr_right hcmp x]
        exact hkl x hx
      · intro x hx
        rw [hc.eq_congr k k0 x hcmp]
        exact hkr x hx
    | gt =>
      rw [show (Tree.insert cmp (Tree.node l k0 v0 r) k v).2
          = Tree.node l k0 v0 (Tree.insert cmp r k v).2 by
        simp [Tree.insert, hcmp]]
      refine BST.node hl ihr hkl ?_
      intro x hx
      rcases Tree.keys_insert_sub x hx with h | h
      · exact hkr x h
      · rw [h]; exact (hc.gt_iff k k0).mp hcmp

theorem Tree.find_insert_self {cmp : Cmp K} (hc : IsComparator cmp)
    (t : Tree K V) (k : K) (v : V) :
    Tree.find cmp (Tree.insert cmp t k v).2 k = some v := by
  induction t with
  | leaf => simp [Tree.insert, Tree.find, hc.refl k]
  | node l k0 v0 r ihl ihr =>
    cases hcmp : cmp k k0 with
    | lt => simp [Tree.insert, hcmp, Tree.find, ihl]
    | eq => simp [Tree.insert, hcmp, Tree.find, hc.refl k]
    | gt => simp [Tree.insert, hcmp, Tree.find, ihr]

theorem Tree.find_insert_ne {cmp : Cmp K} (hc : IsComparator cmp)
    (t : Tree K V) {k q : K} (hne : cmp q k ≠ Ordering.eq) (v : V) :
    Tree.find cmp (Tree.insert cmp t k v).2 q = Tree.find cmp t q := by
  induction t with
  | leaf =>
    cases hq : cmp q k with
    | lt => simp [Tree.insert, Tree.find, hq]
    | eq => exact absurd hq hne
    | gt => simp [Tree.insert, Tree.find, hq]
  | node l k0 v0 r ihl ihr =>
    cases hcmp : cmp k k0 with
    | lt =>
      simp only [Tree.insert, hcmp, Tree.find]
      cases hq : cmp q k0 <;> simp [hq, ihl]
    | eq =>
      have hqq : cmp q k = cmp q k0 := hc.eq_congr_right hcmp q
      simp only [Tree.insert, hcmp, Tree.find]
      cases hq : cmp q k0 with
      | lt => rw [hqq, hq]
      | eq => exact absurd (hqq.trans hq) hne
      | gt => rw [hqq, hq]
    | gt =>
      simp only [Tree.insert, hcmp, Tree.find]
      cases hq : cmp q k0 <;> simp [hq, ihr]

theorem Tree.size_insert (cmp : Cmp K) (t : Tree K V) (k : K) (v : V) :
    (Tree.insert cmp t k v).2.size
      = t.size + (if (Tree.find cmp t k).isSome then 0 else 1) := by
  induction t with
  | leaf => simp [Tree.insert, Tree.find, Tree.size]
  | node l k0 v0 r ihl ihr =>
    cases hcmp : cmp k k0 <;>
      simp [Tree.insert, hcmp, Tree.find, Tree.size, ihl, ihr] <;>
      split <;> omega

/-- Number of entries of the tree whose key compares equal to `q`. -/
def Tree.countKey (cmp : Cmp K) (t : Tree K V) (q : K) : Nat :=
  t.toList.countP (fun e => decide (cmp q e.1 = Ordering.eq))

/-- On a well-formed tree there is at most one entry per comparator
equivalence class: the count is 1 exactly when `find` succeeds. -/
theorem Tree.countKey_eq {cmp : Cmp K} (hc : IsComparator cmp) {t : Tree K V}
    (ht : BST cmp t) (q : K) :
    Tree.countKey cmp t q = if (Tree.find cmp t q).isSome then 1 else 0 := by
  induction ht with
  | leaf => simp [Tree.countKey, Tree.toList, Tree.find]
  | @node l k0 v0 r hl hr hkl hkr ihl ihr =>
    have hsplit : Tree.countKey cmp (Tree.node l k0 v0 r) q
        = Tree.countKey cmp l q
          + ((if cmp q k0 = Ordering.eq then 1 else 0) + Tree.countKey cmp r q) := by
      simp [Tree.countKey, Tree.toList, List.countP_append, List.countP_cons]
      split <;> omega
    rw [hsplit]
    cases hcmp : cmp q k0 with
    | lt =>
      have hr0 : Tree.countKey cmp r q = 0 := by
        rw [Tree.countKey, List.countP_eq_zero]
        intro e he
        obtain ⟨a, b⟩ := e
        have hx := hkr a (Tree.mem_keys_of_mem_toList he)
        have hq := hc.lt_trans q k0 a hcmp hx
        simp [hq]
      have hfind : Tree.find cmp (Tree.node l k0 v0 r) q = Tree.find cmp l q := by
        simp [Tree.find, hcmp]
      rw [ihl, hr0, hfind]
      cases hf : (Tree.find cmp l q).isSome <;> simp [hf]
    | eq =>
      have hl0 : Tree.countKey cmp l q = 0 := by
        rw [Tree.countKey, List.countP_eq_zero]
        intro e he
        obtain ⟨a, b⟩ := e
        have hx := hkl a (Tree.mem_keys_of_mem_toList he)
        have hq : cmp q a = Ordering.gt := by
          rw [hc.eq_congr q k0 a hcmp, hc.gt_iff]
          exact hx
        simp [hq]
      have hr0 : Tree.countKey cmp r q = 0 := by
        rw [Tree.countKey, List.countP_eq_zero]
        intro e he
        obtain ⟨a, b⟩ := e
        have hx := hkr a (Tree.mem_keys_of_mem_toList he)
        have hq : cmp q a = Ordering.lt := by
          rw [hc.eq_congr q k0 a hcmp]
          exact hx
        simp [hq]
      have hfind : Tree.find cmp (Tree.node l k0 v0 r) q = some v0 := by
        simp [Tree.find, hcmp]
      rw [hl0, hr0, hfind]
      simp
    | gt =>
      have hl0 : Tree.countKey cmp l q = 0 := by
        rw [Tree.countKey, List.countP_eq_zero]
        intro e he
        obtain ⟨a, b⟩ := e
        have hx := hkl a (Tree.mem_keys_of_mem_toList he)
        have hq : cmp q a = Ordering.gt := by
          rw [hc.gt_iff] at hcmp ⊢
          exact hc.lt_trans a k0 q hx hcmp
        simp [hq]
      have hfind : Tree.find cmp (Tree.node l k0 v0 r) q = Tree.find cmp r q := by
        simp [Tree.find, hcmp]
      rw [ihr, hl0, hfind]
      cases hf : (Tree.find cmp r q).isSome <;> simp [hf]

theorem Tree.removeMin_eq_none {t : Tree K V} :
    Tree.removeMin t = none ↔ t = .leaf := by
  cases t with
  | leaf => simp [Tree.removeMin]
  | node l k v r =>
    constructor
    · intro h
      rw [Tree.removeMin] at h
      cases hm : Tree.removeMin l with
      | none => rw [hm] at h; simp at h
      | some p => obtain ⟨k0, v0, l2⟩ := p; rw [hm] at h; simp at h
    · intro h; simp at h

/-- Splicing out the minimum unconses the in-order traversal. -/
theorem Tree.removeMin_toList {t t2 : Tree K V} {k : K} {v : V}
    (h : Tree.removeMin t = some (k, v, t2)) :
    t.toList = (k, v) :: t2.toList := by
  induction t generalizing k v t2 with
  | leaf => simp [Tree.removeMin] at h
  | node l k1 v1 r ihl ihr =>
    rw [Tree.removeMin] at h
    cases hm : Tree.removeMin l with
    | none =>
      rw [hm] at h
      simp at h
      obtain ⟨h1, h2, h3⟩ := h
      subst h1; subst h2; subst h3
      rw [Tree.removeMin_eq_none.mp hm]
      simp [Tree.toList]
    | some p =>
      obtain ⟨k0, v0, l2⟩ := p
      rw [hm] at h
      simp at h
      obtain ⟨h1, h2, h3⟩ := h
      subst h1; subst h2; subst h3
      simp [Tree.toList, ihl hm]

theorem Tree.glue_toList (l r : Tree K V) :
    (Tree.glue l r).toList = l.toList ++ r.toList := by
  rw [Tree.glue]
  cases hm : Tree.removeMin r with
  | none => rw [Tree.removeMin_eq_none.mp hm]; simp [Tree.toList]
  | some p =>
    obtain ⟨k, v, r2⟩ := p
    rw [Tree.removeMin_toList hm]
    simp [Tree.toList]

/-- `remove` returns the stored value exactly when the key is present:
its first component coincides with `find`. -/
theorem Tree.remove_fst_eq_find (cmpQ : Q → K → Ordering) (t : Tree K V) (q : Q) :
    (Tree.remove cmpQ t q).1 = Tree.find cmpQ t q := by
  induction t with
  | leaf => simp [Tree.remove, Tree.find]
  | node l k v r ihl ihr =>
    cases hcmp : cmpQ q k <;> simp [Tree.remove, Tree.find, hcmp, ihl, ihr]

/-- On a well-formed tree the in-order keys are pairwise strictly increasing
under the comparator. -/
theorem Tree.bst_pairwise {cmp : Cmp K} (hc : IsComparator cmp) {t : Tree K V}
    (ht : BST cmp t) :
    List.Pairwise (fun a b => cmp a b = Ordering.lt) t.keys := by
  induction ht with
  | leaf => simp [Tree.keys, Tree.toList]
  | @node l k0 v0 r hl hr hkl hkr ihl ihr =>
    rw [Tree.keys_node, List.pairwise_append]
    refine ⟨ihl, List.pairwise_cons.mpr ⟨hkr, ihr⟩, ?_⟩
    intro a ha b hb
    rcases List.mem_cons.mp hb with rfl | hb
    · exact hkl a ha
    · exact hc.lt_trans a k0 b (hkl a ha) (hkr b hb)

theorem Tree.bst_removeMin {cmp : Cmp K} {t t2 : Tree K V} {k : K} {v : V}
    (ht : BST cmp t) (h : Tree.removeMin t = some (k, v, t2)) : BST cmp t2 := by
  induction ht generalizing k v t2 with
  | leaf => simp [Tree.removeMin] at h
  | @node l k1 v1 r hl hr hkl hkr ihl ihr =>
    rw [Tree.removeMin] at h
    cases hm : Tree.removeMin l with
    | none =>
      rw [hm] at h
      simp at h
      obtain ⟨h1, h2, h3⟩ := h
      subst h3
      exact hr
    | some p =>
      obtain ⟨k0, v0, l2⟩ := p
      rw [hm] at h
      simp at h
      obtain ⟨h1, h2, h3⟩ := h
      subst h3
      refine BST.node (ihl hm) hr ?_ hkr
      intro x hx
      apply hkl
      rw [show l.keys = k0 :: l2.keys by
        simp [Tree.keys, Tree.removeMin_toList hm]]
      exact List.mem_cons_of_mem _ hx

theorem Tree.bst_glue {cmp : Cmp K} (hc : IsComparator cmp) {l r : Tree K V}
    {k0 : K} (hl : BST cmp l) (hr : BST cmp r)
    (hkl : ∀ x ∈ l.keys, cmp x k0 = Ordering.lt)
    (hkr : ∀ x ∈ r.keys, cmp k0 x = Ordering.lt) : BST cmp (Tree.glue l r) := by
  rw [Tree.glue]
  cases hm : Tree.removeMin r with
  | none => exact hl
  | some p =>
    obtain ⟨k, v, r2⟩ := p
    have hkeys : r.keys = k :: r2.keys := by
      simp [Tree.keys, Tree.removeMin_toList hm]
    have hmem : k ∈ r.keys := by rw [hkeys]; exact List.mem_cons_self _ _
    have hpw := Tree.bst_pairwise hc hr
    rw [hkeys] at hpw
    refine BST.node hl (Tree.bst_removeMin hr hm) ?_ (List.pairwise_cons.mp hpw).1
    intro x hx
    exact hc.lt_trans x k0 k (hkl x hx) (hkr k hmem)

theorem Tree.keys_glue (l r : Tree K V) :
    (Tree.glue l r).keys = l.keys ++ r.keys := by
  simp [Tree.keys, Tree.glue_toList]

theorem Tree.keys_remove_sub {cmpQ : Q → K → Ordering} {t : Tree K V} {q : Q} :
    ∀ x ∈ (Tree.remove cmpQ t q).2.keys, x ∈ t.keys := by
  induction t with
  | leaf => intro x hx; simpa [Tree.remove] using hx
  | node l k v r ihl ihr =>
    intro x hx
    cases hcmp : cmpQ q k with
    | lt =>
      rw [show (Tree.remove cmpQ (Tree.node l k v r) q).2
          = Tree.node (Tree.remove cmpQ l q).2 k v r by
        simp [Tree.remove, hcmp]] at hx
      rw [Tree.mem_keys_node] at hx ⊢
      rcases hx with hx | hx | hx
      · exact Or.inl (ihl x hx)
      · exact Or.inr (Or.inl hx)
      · exact Or.inr (Or.inr hx)
    | eq =>
      rw [show (Tree.remove cmpQ (Tree.node l k v r) q).2 = Tree.glue l r by
        simp [Tree.remove, hcmp]] at hx
      rw [Tree.keys_glue] at hx
      rw [Tree.mem_keys_node]
      rcases List.mem_append.mp hx with h | h
      · exact Or.inl h
      · exact Or.inr (Or.inr h)
    | gt =>
      rw [show (Tree.remove cmpQ (Tree.node l k v r) q).2
          = Tree.node l k v (Tree.remove cmpQ r q).2 by
        simp [Tree.remove, hcmp]] at hx
      rw [Tree.mem_keys_node] at hx ⊢
      rcases hx with hx | hx | hx
      · exact Or.inl hx
      · exact Or.inr (Or.inl hx)
      · exact Or.inr (Or.inr (ihr x hx))

/-- `remove` preserves the ordering invariant. -/
theorem Tree.bst_remove {cmp : Cmp K} (hc : IsComparator cmp) {t : Tree K V}
    (ht : BST cmp t) (q : K) : BST cmp (Tree.remove cmp t q).2 := by
  induction ht with
  | leaf => exact BST.leaf
  | @node l k0 v0 r hl hr hkl hkr ihl ihr =>
    cases hcmp : cmp q k0 with
    | lt =>
      rw [show (Tree.remove cmp (Tree.node l k0 v0 r) q).2
          = Tree.node (Tree.remove cmp l q).2 k0 v0 r by
        simp [Tree.remove, hcmp]]
      refine BST.node ihl hr ?_ hkr
      intro x hx
      exact hkl x (Tree.keys_remove_sub x hx)
    | eq =>
      rw [show (Tree.remove cmp (Tree.node l k0 v0 r) q).2 = Tree.glue l r by
        simp [Tree.remove, hcmp]]
      exact Tree.bst_glue hc hl hr hkl hkr
    | gt =>
      rw [show (Tree.remove cmp (Tree.node l k0 v0 r) q).2
          = Tree.node l k0 v0 (Tree.remove cmp r q).2 by
        simp [Tree.remove, hcmp]]
      refine BST.node hl ihr hkl ?_
      intro x hx
      exact hkr x (Tree.keys_remove_sub x hx)

/-- On a well-formed tree, `remove q` leaves no key comparing equal to `q`. -/
theorem Tree.keys_remove_not_eq {cmp : Cmp K} (hc : IsComparator cmp)
    {t : Tree K V} (ht : BST cmp t) (q : K) :
    ∀ x ∈ (Tree.remove cmp t q).2.keys, cmp q x ≠ Ordering.eq := by
  induction ht with
  | leaf => intro x hx; simp [Tree.remove, Tree.keys, Tree.toList] at hx
  | @node l k0 v0 r hl hr hkl hkr ihl ihr =>
    intro x hx
    cases hcmp : cmp q k0 with
    | lt =>
      rw [show (Tree.remove cmp (Tree.node l k0 v0 r) q).2
          = Tree.node (Tree.remove cmp l q).2 k0 v0 r by
        simp [Tree.remove, hcmp]] at hx
      rw [Tree.mem_keys_node] at hx
      rcases hx with hx | rfl | hx
      · exact ihl x hx
      · simp [hcmp]
      · intro he
        have hlt := hc.lt_trans q k0 x hcmp (hkr x hx)
        rw [hlt] at he
        exact Ordering.noConfusion he
    | eq =>
      rw [show (Tree.remove cmp (Tree.node l k0 v0 r) q).2 = Tree.glue l r by
        simp [Tree.remove, hcmp]] at hx
      rw [Tree.keys_glue] at hx
      rcases List.mem_append.mp hx with h | h
      · intro he
        have h2 : cmp q x = Ordering.gt := by
          rw [hc.eq_congr q k0 x hcmp, hc.gt_iff]
          exact hkl x h
        rw [h2] at he
        exact Ordering.noConfusion he
      · intro he
        have h2 : cmp q x = Ordering.lt := by
          rw [hc.eq_congr q k0 x hcmp]
          exact hkr x h
        rw [h2] at he
        exact Ordering.noConfusion he
    | gt =>
      rw [show (Tree.remove cmp (Tree.node l k0 v0 r) q).2
          = Tree.node l k0 v0 (Tree.remove cmp r q).2 by
        simp [Tree.remove, hcmp]] at hx
      rw [Tree.mem_keys_node] at hx
      rcases hx with hx | rfl | hx
      · intro he
        have h2 : cmp q x = Ordering.gt := by
          rw [hc.gt_iff]
          exact hc.lt_trans x k0 q (hkl x hx) ((hc.gt_iff q k0).mp hcmp)
        rw [h2] at he
        exact Ordering.noConfusion he
      · simp [hcmp]
      · exact ihr x hx

theorem Tree.size_glue (l r : Tree K V) :
    (Tree.glue l r).size = l.size + r.size := by
  simp [Tree.size_eq_length, Tree.glue_toList]

/-- Removal decrements the size exactly when the key was present. -/
theorem Tree.size_remove (cmpQ : Q → K → Ordering) (t : Tree K V) (q : Q) :
    t.size = (Tree.remove cmpQ t q).2.size
      + (if (Tree.find cmpQ t q).isSome then 1 else 0) := by
  induction t with
  | leaf => simp [Tree.remove, Tree.find, Tree.size]
  | node l k0 v0 r ihl ihr =>
    cases hcmp : cmpQ q k0 with
    | lt =>
      rw [show (Tree.remove cmpQ (Tree.node l k0 v0 r) q).2
          = Tree.node (Tree.remove cmpQ l q).2 k0 v0 r by
        simp [Tree.remove, hcmp],
        show Tree.find cmpQ (Tree.node l k0 v0 r) q = Tree.find cmpQ l q by
          simp [Tree.find, hcmp]]
      simp only [Tree.size]
      omega
    | eq =>
      rw [show (Tree.remove cmpQ (Tree.node l k0 v0 r) q).2 = Tree.glue l r by
        simp [Tree.remove, hcmp],
        show Tree.find cmpQ (Tree.node l k0 v0 r) q = some v0 by
          simp [Tree.find, hcmp]]
      rw [Tree.size_glue]
      simp [Tree.size]
    | gt =>
      rw [show (Tree.remove cmpQ (Tree.node l k0 v0 r) q).2
          = Tree.node l k0 v0 (Tree.remove cmpQ r q).2 by
        simp [Tree.remove, hcmp],
        show Tree.find cmpQ (Tree.node l k0 v0 r) q = Tree.find cmpQ r q by
          simp [Tree.find, hcmp]]
      simp only [Tree.size]
      omega

theorem Tree.bst_extend {cmp : Cmp K} (hc : IsComparator cmp) :
    ∀ (kvs : List (K × V)) {t : Tree K V}, BST cmp t →
      BST cmp (Tree.extend cmp t kvs) := by
  intro kvs
  induction kvs with
  | nil => intro t ht; exact ht
  | cons e es ih =>
    intro t ht
    rw [Tree.extend]
    exact ih (Tree.bst_insert hc ht e.1 e.2)

theorem Tree.keys_extend_sub {cmp : Cmp K} :
    ∀ (kvs : List (K × V)) (t : Tree K V), ∀ x ∈ (Tree.extend cmp t kvs).keys,
      x ∈ t.keys ∨ x ∈ kvs.map Prod.fst := by
  intro kvs
  induction kvs with
  | nil => intro t x hx; exact Or.inl hx
  | cons e es ih =>
    intro t x hx
    rw [Tree.extend] at hx
    rcases ih _ x hx with h | h
    · rcases Tree.keys_insert_sub x h with h2 | h2
      · exact Or.inl h2
      · right; rw [h2]; simp
    · right; simp [h]

/-- Removing a covering list of keys from a well-formed tree empties it. -/
theorem Tree.removeAll_toList_nil {cmp : Cmp K} (hc : IsComparator cmp) :
    ∀ (rs : List K) {t : Tree K V}, BST cmp t →
      (∀ x ∈ t.keys, ∃ j ∈ rs, cmp j x = Ordering.eq) →
      (Tree.removeAll cmp t rs).toList = [] := by
  intro rs
  induction rs with
  | nil =>
    intro t ht hcov
    show t.toList = []
    cases hl : t.toList with
    | nil => rfl
    | cons e es =>
      obtain ⟨a, b⟩ := e
      have hmem : a ∈ t.keys :=
        Tree.mem_keys_of_mem_toList (by rw [hl]; exact List.mem_cons_self _ _)
      rcases hcov _ hmem with ⟨j, hj, _⟩
      simp at hj
  | cons k ks ih =>
    intro t ht hcov
    rw [Tree.removeAll]
    apply ih (Tree.bst_remove hc ht k)
    intro x hx
    have hne := Tree.keys_remove_not_eq hc ht k x hx
    have hmem := Tree.keys_remove_sub x hx
    rcases hcov x hmem with ⟨j, hj, hje⟩
    rcases List.mem_cons.mp hj with rfl | hj2
    · exact absurd hje hne
    · exact ⟨j, hj2, hje⟩

/-- `q` matches some element of the list up to comparator equality. -/
def MemEq (cmpQ : Q → K → Ordering) (q : Q) (l : List K) : Prop :=
  ∃ x ∈ l, cmpQ q x = Ordering.eq

instance (cmpQ : Q → K → Ordering) (q : Q) (l : List K) :
    Decidable (MemEq cmpQ q l) :=
  inferInstanceAs (Decidable (∃ x ∈ l, cmpQ q x = Ordering.eq))

theorem memEq_nil {cmpQ : Q → K → Ordering} {q : Q} :
    ¬ MemEq cmpQ q ([] : List K) := by
  simp [MemEq]

theorem memEq_cons {cmpQ : Q → K → Ordering} {q : Q} {x : K} {l : List K} :
    MemEq cmpQ q (x :: l) ↔ cmpQ q x = Ordering.eq ∨ MemEq cmpQ q l := by
  simp [MemEq]

/-- No element of a strictly ascending list matches a query below its head. -/
theorem not_memEq_of_lt_head {cmp : Cmp K} (hc : IsComparator cmp) {q y : K}
    {ys : List K}
    (hpw : List.Pairwise (fun a b => cmp a b = Ordering.lt) (y :: ys))
    (hq : cmp q y = Ordering.lt) : ¬ MemEq cmp q (y :: ys) := by
  rintro ⟨x, hx, he⟩
  rcases List.mem_cons.mp hx with rfl | hx
  · rw [hq] at he; exact Ordering.noConfusion he
  · have hlt := (List.pairwise_cons.mp hpw).1 x hx
    have h2 := hc.lt_trans q y x hq hlt
    rw [h2] at he; exact Ordering.noConfusion he

/-- Modelled from the spec: set union by merge-style parallel in-order
traversal of the two key sequences (§4.1); on a tie the left operand's
element is kept. -/
def listUnion (cmp : Cmp K) : List K → List K → List K
  | [], ys => ys
  | x :: xs, [] => x :: xs
  | x :: xs, y :: ys =>
    match cmp x y with
    | .lt => x :: listUnion cmp xs (y :: ys)
    | .eq => x :: listUnion cmp xs ys
    | .gt => y :: listUnion cmp (x :: xs) ys
termination_by a b => a.length + b.length

/-- Modelled from the spec: set intersection by merge traversal. -/
def listInter (cmp : Cmp K) : List K → List K → List K
  | [], _ => []
  | _ :: _, [] => []
  | x :: xs, y :: ys =>
    match cmp x y with
    | .lt => listInter cmp xs (y :: ys)
    | .eq => x :: listInter cmp xs ys
    | .gt => listInter cmp (x :: xs) ys
termination_by a b => a.length + b.length

/-- Modelled from the spec: set difference by merge traversal. -/
def listDiff (cmp : Cmp K) : List K → List K → List K
  | [], _ => []
  | x :: xs, [] => x :: xs
  | x :: xs, y :: ys =>
    match cmp x y with
    | .lt => x :: listDiff cmp xs (y :: ys)
    | .eq => listDiff cmp xs ys
    | .gt => listDiff cmp (x :: xs) ys
termination_by a b => a.length + b.length

theorem listUnion_memEq {cmp : Cmp K} (hc : IsComparator cmp) (q : K) :
    ∀ (a b : List K),
      MemEq cmp q (listUnion cmp a b) ↔ MemEq cmp q a ∨ MemEq cmp q b := by
  intro a
  induction a with
  | nil => intro b; simp [listUnion, memEq_nil, MemEq]
  | cons x xs ih =>
    intro b
    induction b with
    | nil => simp [listUnion, memEq_nil, MemEq]
    | cons y ys ihb =>
      cases hxy : cmp x y with
      | lt =>
        rw [show listUnion cmp (x :: xs) (y :: ys)
            = x :: listUnion cmp xs (y :: ys) by simp [listUnion, hxy]]
        simp only [memEq_cons, ih (y :: ys)]
        clear ih ihb
        tauto
      | eq =>
        rw [show listUnion cmp (x :: xs) (y :: ys)
            = x :: listUnion cmp xs ys by simp [listUnion, hxy]]
        simp only [memEq_cons, ih ys]
        rw [hc.eq_congr_right hxy q]
        clear ih ihb
        tauto
      | gt =>
        rw [show listUnion cmp (x :: xs) (y :: ys)
            = y :: listUnion cmp (x :: xs) ys by simp [listUnion, hxy]]
        simp only [memEq_cons, ihb]
        clear ih ihb
        tauto

theorem listUnion_sub {cmp : Cmp K} :
    ∀ (a b : List K), ∀ x ∈ listUnion cmp a b, x ∈ a ∨ x ∈ b := by
  intro a
  induction a with
  | nil => intro b x hx; rw [listUnion] at hx; exact Or.inr hx
  | cons z zs ih =>
    intro b
    induction b with
    | nil => intro x hx; rw [listUnion] at hx; exact Or.inl hx
    | cons y ys ihb =>
      intro x hx
      cases hxy : cmp z y with
      | lt =>
        rw [show listUnion cmp (z :: zs) (y :: ys)
            = z :: listUnion cmp zs (y :: ys) by simp [listUnion, hxy]] at hx
        rcases List.mem_cons.mp hx with rfl | hx
        · exact Or.inl (List.mem_cons_self _ _)
        · rcases ih (y :: ys) x hx with h | h
          · exact Or.inl (List.mem_cons_of_mem _ h)
          · exact Or.inr h
      | eq =>
        rw [show listUnion cmp (z :: zs) (y :: ys)
            = z :: listUnion cmp zs ys by simp [listUnion, hxy]] at hx
        rcases List.mem_cons.mp hx with rfl | hx
        · exact Or.inl (List.mem_cons_self _ _)
        · rcases ih ys x hx with h | h
          · exact Or.inl (List.mem_cons_of_mem _ h)
          · exact Or.inr (List.mem_cons_of_mem _ h)
      | gt =>
        rw [show listUnion cmp (z :: zs) (y :: ys)
            = y :: listUnion cmp (z :: zs) ys by simp [listUnion, hxy]] at hx
        rcases List.mem_cons.mp hx with rfl | hx
        · exact Or.inr (List.mem_cons_self _ _)
        · rcases ihb x hx with h | h
          · exact Or.inl h
          · exact Or.inr (List.mem_cons_of_mem _ h)

theorem listUnion_pairwise {cmp : Cmp K} (hc : IsComparator cmp) :
    ∀ (a b : List K),
      List.Pairwise (fun u w => cmp u w = Ordering.lt) a →
      List.Pairwise (fun u w => cmp u w = Ordering.lt) b →
      List.Pairwise (fun u w => cmp u w = Ordering.lt) (listUnion cmp a b) := by
  intro a
  induction a with
  | nil => intro b _ hb; rw [listUnion]; exact hb
  | cons x xs ih =>
    intro b
    induction b with
    | nil => intro ha _; rw [listUnion]; exact ha
    | cons y ys ihb =>
      intro ha hb
      obtain ⟨hax, haxs⟩ := List.pairwise_cons.mp ha
      obtain ⟨hby, hbys⟩ := List.pairwise_cons.mp hb
      cases hxy : cmp x y with
      | lt =>
        rw [show listUnion cmp (x :: xs) (y :: ys)
            = x :: listUnion cmp xs (y :: ys) by simp [listUnion, hxy]]
        refine List.pairwise_cons.mpr ⟨?_, ih (y :: ys) haxs hb⟩
        intro z hz
        rcases listUnion_sub xs (y :: ys) z hz with h | h
        · exact hax z h
        · rcases List.mem_cons.mp h with rfl | h
          · exact hxy
          · exact hc.lt_trans x y z hxy (hby z h)
      | eq =>
        rw [show listUnion cmp (x :: xs) (y :: ys)
            = x :: listUnion cmp xs ys by simp [listUnion, hxy]]
        refine List.pairwise_cons.mpr ⟨?_, ih ys haxs hbys⟩
        intro z hz
        rcases listUnion_sub xs ys z hz with h | h
        · exact hax z h
        · rw [hc.eq_congr x y z hxy]
          exact hby z h
      | gt =>
        rw [show listUnion cmp (x :: xs) (y :: ys)
            = y :: listUnion cmp (x :: xs) ys by simp [listUnion, hxy]]
        refine List.pairwise_cons.mpr ⟨?_, ihb ha hbys⟩
        intro z hz
        rcases listUnion_sub (x :: xs) ys z hz with h | h
        · rcases List.mem_cons.mp h with rfl | h
          · exact (hc.gt_iff _ _).mp hxy
          · exact hc.lt_trans y x z ((hc.gt_iff x y).mp hxy) (hax z h)
        · exact hby z h

theorem listInter_sublist {cmp : Cmp K} :
    ∀ (a b : List K), List.Sublist (listInter cmp a b) a := by
  intro a
  induction a with
  | nil => intro b; simp [listInter]
  | cons x xs ih =>
    intro b
    induction b with
    | nil => simp [listInter]
    | cons y ys ihb =>
      cases hxy : cmp x y with
      | lt =>
        rw [show listInter cmp (x :: xs) (y :: ys)
            = listInter cmp xs (y :: ys) by simp [listInter, hxy]]
        exact (ih (y :: ys)).cons _
      | eq =>
        rw [show listInter cmp (x :: xs) (y :: ys)
            = x :: listInter cmp xs ys by simp [listInter, hxy]]
        exact (ih ys).cons₂ _
      | gt =>
        rw [show listInter cmp (x :: xs) (y :: ys)
            = listInter cmp (x :: xs) ys by simp [listInter, hxy]]
        exact ihb

theorem listDiff_sublist {cmp : Cmp K} :
    ∀ (a b : List K), List.Sublist (listDiff cmp a b) a := by
  intro a
  induction a with
  | nil => intro b; simp [listDiff]
  | cons x xs ih =>
    intro b
    induction b with
    | nil =>
      rw [show listDiff cmp (x :: xs) ([] : List K) = x :: xs by
        simp [listDiff]]
    | cons y ys ihb =>
      cases hxy : cmp x y with
      | lt =>
        rw [show listDiff cmp (x :: xs) (y :: ys)
            = x :: listDiff cmp xs (y :: ys) by simp [listDiff, hxy]]
        exact (ih (y :: ys)).cons₂ _
      | eq =>
        rw [show listDiff cmp (x :: xs) (y :: ys)
            = listDiff cmp xs ys by simp [listDiff, hxy]]
        exact (ih ys).cons _
      | gt =>
        rw [show listDiff cmp (x :: xs) (y :: ys)
            = listDiff cmp (x :: xs) ys by simp [listDiff, hxy]]
        exact ihb

theorem listInter_memEq {cmp : Cmp K} (hc : IsComparator cmp) (q : K) :
    ∀ (a b : List K),
      List.Pairwise (fun u w => cmp u w = Ordering.lt) a →
      List.Pairwise (fun u w => cmp u w = Ordering.lt) b →
      (MemEq cmp q (listInter cmp a b) ↔ MemEq cmp q a ∧ MemEq cmp q b) := by
  intro a
  induction a with
  | nil => intro b _ _; simp [listInter, memEq_nil, MemEq]
  | cons x xs ih =>
    intro b
    induction b with
    | nil => intro _ _; simp [listInter, memEq_nil, MemEq]
    | cons y ys ihb =>
      intro ha hb
      obtain ⟨hax, haxs⟩ := List.pairwise_cons.mp ha
      obtain ⟨hby, hbys⟩ := List.pairwise_cons.mp hb
      cases hxy : cmp x y with
      | lt =>
        rw [show listInter cmp (x :: xs) (y :: ys)
            = listInter cmp xs (y :: ys) by simp [listInter, hxy]]
        rw [ih (y :: ys) haxs hb]
        have hside : cmp q x = Ordering.eq →
            ¬ (cmp q y = Ordering.eq ∨ MemEq cmp q ys) := by
          intro hqx
          rw [← memEq_cons]
          exact not_memEq_of_lt_head hc hb
            (by rw [hc.eq_congr q x y hqx]; exact hxy)
        simp only [memEq_cons]
        clear ih ihb
        tauto
      | eq =>
        rw [show listInter cmp (x :: xs) (y :: ys)
            = x :: listInter cmp xs ys by simp [listInter, hxy]]
        simp only [memEq_cons]
        rw [ih ys haxs hbys, hc.eq_congr_right hxy q]
        exact or_and_left
      | gt =>
        rw [show listInter cmp (x :: xs) (y :: ys)
            = listInter cmp (x :: xs) ys by simp [listInter, hxy]]
        rw [ihb ha hbys]
        have hside : cmp q y = Ordering.eq →
            ¬ (cmp q x = Ordering.eq ∨ MemEq cmp q xs) := by
          intro hqy
          rw [← memEq_cons]
          exact not_memEq_of_lt_head hc ha
            (by rw [hc.eq_congr q y x hqy]; exact (hc.gt_iff x y).mp hxy)
        simp only [memEq_cons]
        clear ih ihb
        tauto

theorem listDiff_memEq {cmp : Cmp K} (hc : IsComparator cmp) (q : K) :
    ∀ (a b : List K),
      List.Pairwise (fun u w => cmp u w = Ordering.lt) a →
      List.Pairwise (fun u w => cmp u w = Ordering.lt) b →
      (MemEq cmp q (listDiff cmp a b) ↔ MemEq cmp q a ∧ ¬ MemEq cmp q b) := by
  intro a
  induction a with
  | nil => intro b _ _; simp [listDiff, memEq_nil, MemEq]
  | cons x xs ih =>
    intro b
    induction b with
    | nil =>
      intro _ _
      rw [listDiff]
      simp [memEq_nil, MemEq]
    | cons y ys ihb =>
      intro ha hb
      obtain ⟨hax, haxs⟩ := List.pairwise_cons.mp ha
      obtain ⟨hby, hbys⟩ := List.pairwise_cons.mp hb
      cases hxy : cmp x y with
      | lt =>
        rw [show listDiff cmp (x :: xs) (y :: ys)
            = x :: listDiff cmp xs (y :: ys) by simp [listDiff, hxy]]
        have hside : cmp q x = Ordering.eq →
            ¬ (cmp q y = Ordering.eq ∨ MemEq cmp q ys) := by
          intro hqx
          rw [← memEq_cons]
          exact not_memEq_of_lt_head hc hb
            (by rw [hc.eq_congr q x y hqx]; exact hxy)
        simp only [memEq_cons, ih (y :: ys) haxs hb]
        clear ih ihb
        tauto
      | eq =>
        rw [show listDiff cmp (x :: xs) (y :: ys)
            = listDiff cmp xs ys by simp [listDiff, hxy]]
        rw [ih ys haxs hbys]
        have hxy2 : cmp q x = cmp q y := hc.eq_congr_right hxy q
        have hside : cmp q y = Ordering.eq → ¬ MemEq cmp q xs := by
          intro hqy
          rintro ⟨z, hz, hze⟩
          have hqx : cmp q x = Ordering.eq := by rw [hxy2]; exact hqy
          have hlt : cmp q z = Ordering.lt := by
            rw [hc.eq_congr q x z hqx]; exact hax z hz
          rw [hlt] at hze; exact Ordering.noConfusion hze
        simp only [memEq_cons]
        rw [hxy2]
        clear ih ihb
        tauto
      | gt =>
        rw [show listDiff cmp (x :: xs) (y :: ys)
            = listDiff cmp (x :: xs) ys by simp [listDiff, hxy]]
        rw [ihb ha hbys]
        have hside : cmp q y = Ordering.eq →
            ¬ (cmp q x = Ordering.eq ∨ MemEq cmp q xs) := by
          intro hqy
          rw [← memEq_cons]
          exact not_memEq_of_lt_head hc ha
            (by rw [hc.eq_congr q y x hqy]; exact (hc.gt_iff x y).mp hxy)
        simp only [memEq_cons]
        clear ih ihb
        tauto

/-- Build a set tree whose in-order keys are exactly the given list (the
physical shape of the freshly built result tree is unobservable). -/
def Tree.fromKeyList : List K → Tree K Unit
  | [] => .leaf
  | k :: ks => .node .leaf k () (Tree.fromKeyList ks)

theorem Tree.keys_fromKeyList (l : List K) :
    (Tree.fromKeyList l).keys = l := by
  induction l with
  | nil => rfl
  | cons k ks ih => simp [Tree.fromKeyList, Tree.keys_node, ih, Tree.keys_leaf]

theorem Tree.bst_fromKeyList {cmp : Cmp K} {l : List K}
    (h : List.Pairwise (fun u w => cmp u w = Ordering.lt) l) :
    BST cmp (Tree.fromKeyList l) := by
  induction l with
  | nil => exact BST.leaf
  | cons k ks ih =>
    obtain ⟨hk, hks⟩ := List.pairwise_cons.mp h
    refine BST.node BST.leaf (ih hks) ?_ ?_
    · intro x hx; simp [Tree.keys_leaf] at hx
    · intro x hx
      rw [Tree.keys_fromKeyList] at hx
      exact hk x hx

/-- Result of the faulting accessor: either the value, or the unrecoverable
programmer-error fault (the Rust `Index` panic). -/
inductive IndexResult (V : Type v) where
  | ok (v : V)
  | fault

/-- Modelled from the spec and the `Index` impl signature in
src/unnamed/part_000 (`impl Index<&Q> for TreeMap where C: Compare<K> +
Compare<Q, K>`): `index` is the lookup that faults when the key is absent,
mirroring out-of-bounds array access. -/
def Tree.index (cmpQ : Q → K → Ordering) (t : Tree K V) (q : Q) :
    IndexResult V :=
  match Tree.find cmpQ t q with
  | some v => .ok v
  | none => .fault

/-- The map façade: a comparator value of type `C` plus the owned node tree. -/
structure TreeMap (K : Type u) (V : Type v) (C : Type w) where
  cmp : C
  root : Tree K V

/-- The set façade: same engine, keys only (`Unit` values). -/
structure TreeSet (K : Type u) (C : Type w) where
  cmp : C
  root : Tree K Unit

/-- Modelled from the spec and the `Default` impl signatures in
src/unnamed/part_001 (`impl Default for TreeMap where C: Compare<K> +
Default`): `default()` exists exactly when the comparator type `C` supplies a
default instance, and returns the empty tree with that default comparator. -/
def TreeMap.default (K : Type u) (V : Type v) (C : Type w) [Inhabited C] :
    TreeMap K V C :=
  ⟨Inhabited.default, Tree.leaf⟩

/-- Modelled from the spec and the `Default` impl signatures in
src/unnamed/part_001 (`impl Default for TreeSet where C: Compare<T> +
Default`). -/
def TreeSet.default (K : Type u) (C : Type w) [Inhabited C] : TreeSet K C :=
  ⟨Inhabited.default, Tree.leaf⟩

/-- Membership test of the set façade. -/
def TreeSet.mem (s : TreeSet K (Cmp K)) (x : K) : Bool :=
  (Tree.find s.cmp s.root x).isSome

/-- Modelled from the spec (§4.1): union of two sets by merge traversal of
their in-order key sequences; the left operand's comparator builds the
result. -/
def TreeSet.union (A B : TreeSet K (Cmp K)) : TreeSet K (Cmp K) :=
  ⟨A.cmp, Tree.fromKeyList (listUnion A.cmp A.root.keys B.root.keys)⟩

/-- Modelled from the spec (§4.1): intersection by merge traversal. -/
def TreeSet.inter (A B : TreeSet K (Cmp K)) : TreeSet K (Cmp K) :=
  ⟨A.cmp, Tree.fromKeyList (listInter A.cmp A.root.keys B.root.keys)⟩

/-- Modelled from the spec (§4.1): difference by merge traversal. -/
def TreeSet.sdiff (A B : TreeSet K (Cmp K)) : TreeSet K (Cmp K) :=
  ⟨A.cmp, Tree.fromKeyList (listDiff A.cmp A.root.keys B.root.keys)⟩

/-- Modelled from src/doc/implementors/core/ops/trait.BitOr.js
(`impl BitOr<&TreeSet<T, C>> for &TreeSet<T, C> where T: Clone,
C: Compare<T> + Eq + Clone`): `A | B` reads both operands by shared borrow and
returns a newly built owned set, their union; element and comparator cloning
is value copying in this model. -/
def TreeSet.bitOr (A B : TreeSet K (Cmp K)) : TreeSet K (Cmp K) :=
  TreeSet.union A B

/-- One `A | B` step over a store of sets: the two operands are only read, and
the freshly built union is appended to the store. -/
def TreeSet.bitOrStep (st : List (TreeSet K (Cmp K))) (i j : Nat) :
    List (TreeSet K (Cmp K)) :=
  match st[i]?, st[j]? with
  | some A, some B => st ++ [TreeSet.bitOr A B]
  | _, _ => st

/-- Bulk insertion on the set façade (the `Extend<T> for TreeSet` impl in
src/unnamed/part_001): each key is inserted in sequence order. -/
def TreeSet.extend (s : TreeSet K (Cmp K)) (l : List K) : TreeSet K (Cmp K) :=
  ⟨s.cmp, Tree.extend s.cmp s.root (l.map (fun k => (k, ())))⟩

/-- Boolean membership in a key list up to comparator equality. -/
def memb (cmp : Cmp K) (x : K) (l : List K) : Bool :=
  l.any (fun y => cmp x y == Ordering.eq)

/-- Reference (sorted-array style) union, straight from the spec's words:
the keys of A together with those keys of B not already present in A. -/
def refUnion (cmp : Cmp K) (a b : List K) : List K :=
  a ++ b.filter (fun y => !(memb cmp y a))

/-- Reference intersection: exactly the keys of A that are also in B. -/
def refInter (cmp : Cmp K) (a b : List K) : List K :=
  a.filter (fun x => memb cmp x b)

/-- Reference difference: exactly the keys of A that are not in B. -/
def refDiff (cmp : Cmp K) (a b : List K) : List K :=
  a.filter (fun x => !(memb cmp x b))

theorem ordering_beq_eq (o : Ordering) :
    (o == Ordering.eq) = true ↔ o = Ordering.eq := by
  cases o <;> decide

theorem memb_iff {cmp : Cmp K} {x : K} {l : List K} :
    memb cmp x l = true ↔ MemEq cmp x l := by
  simp [memb, MemEq, List.any_eq_true, ordering_beq_eq]

theorem refUnion_memEq {cmp : Cmp K} (hc : IsComparator cmp) (q : K)
    (a b : List K) :
    MemEq cmp q (refUnion cmp a b) ↔ MemEq cmp q a ∨ MemEq cmp q b := by
  constructor
  · rintro ⟨x, hx, he⟩
    rcases List.mem_append.mp hx with h | h
    · exact Or.inl ⟨x, h, he⟩
    · exact Or.inr ⟨x, (List.mem_filter.mp h).1, he⟩
  · rintro (⟨x, hx, he⟩ | ⟨x, hx, he⟩)
    · exact ⟨x, List.mem_append_left _ hx, he⟩
    · by_cases hm : memb cmp x a = true
      · rcases memb_iff.mp hm with ⟨z, hz, hze⟩
        refine ⟨z, List.mem_append_left _ hz, ?_⟩
        rw [hc.eq_congr q x z he]
        exact hze
      · refine ⟨x, List.mem_append_right _ ?_, he⟩
        exact List.mem_filter.mpr ⟨hx, by simp [hm]⟩

theorem refInter_memEq {cmp : Cmp K} (hc : IsComparator cmp) (q : K)
    (a b : List K) :
    MemEq cmp q (refInter cmp a b) ↔ MemEq cmp q a ∧ MemEq cmp q b := by
  constructor
  · rintro ⟨x, hx, he⟩
    obtain ⟨hxa, hxb⟩ := List.mem_filter.mp hx
    refine ⟨⟨x, hxa, he⟩, ?_⟩
    rcases memb_iff.mp hxb with ⟨z, hz, hze⟩
    exact ⟨z, hz, by rw [hc.eq_congr q x z he]; exact hze⟩
  · rintro ⟨⟨x, hx, he⟩, ⟨z, hz, hze⟩⟩
    refine ⟨x, List.mem_filter.mpr ⟨hx, memb_iff.mpr ⟨z, hz, ?_⟩⟩, he⟩
    rw [hc.eq_congr x q z (hc.eq_symm he)]
    exact hze

theorem refDiff_memEq {cmp : Cmp K} (hc : IsComparator cmp) (q : K)
    (a b : List K) :
    MemEq cmp q (refDiff cmp a b) ↔ MemEq cmp q a ∧ ¬ MemEq cmp q b := by
  constructor
  · rintro ⟨x, hx, he⟩
    obtain ⟨hxa, hxb⟩ := List.mem_filter.mp hx
    refine ⟨⟨x, hxa, he⟩, ?_⟩
    rintro ⟨z, hz, hze⟩
    have hm : memb cmp x b = true := memb_iff.mpr
      ⟨z, hz, by rw [hc.eq_congr x q z (hc.eq_symm he)]; exact hze⟩
    simp [hm] at hxb
  · rintro ⟨⟨x, hx, he⟩, hnb⟩
    refine ⟨x, List.mem_filter.mpr ⟨hx, ?_⟩, he⟩
    by_cases hm : memb cmp x b = true
    · exfalso
      rcases memb_iff.mp hm with ⟨z, hz, hze⟩
      exact hnb ⟨z, hz, by rw [hc.eq_congr q x z he]; exact hze⟩
    · simp [hm]

/-- The standard comparator on natural numbers, used in concrete examples. -/
def natCmp (a b : Nat) : Ordering :=
  if a < b then .lt else if a = b then .eq else .gt

theorem natCmp_isComparator : IsComparator natCmp := by
  constructor
  · intro a b
    simp only [natCmp]
    rcases Nat.lt_trichotomy a b with h | h | h
    · rw [if_pos h, if_neg (show ¬ b < a by omega),
        if_neg (show ¬ b = a by omega)]
      rfl
    · subst h
      rw [if_neg (show ¬ a < a by omega), if_pos rfl]
      rfl
    · rw [if_neg (show ¬ a < b by omega), if_neg (show ¬ a = b by omega),
        if_pos h]
      rfl
  · intro a b c h1 h2
    simp only [natCmp] at h1 h2 ⊢
    split_ifs at h1 h2 ⊢ <;> simp_all <;> omega
  · intro a b c h
    have hab : a = b := by
      by_cases h1 : a < b
      · simp [natCmp, h1] at h
      · by_cases h2 : a = b
        · exact h2
        · simp [natCmp, h1, h2] at h
    rw [hab]

/-- `find` with an explicit step budget: `none` means the budget ran out
before the descent finished. -/
def Tree.findF (cmpQ : Q → K → Ordering) : Nat → Tree K V → Q → Option (Option V)
  | 0, _, _ => none
  | _ + 1, .leaf, _ => some none
  | fuel + 1, .node l k v r, q =>
    match cmpQ q k with
    | .lt => Tree.findF cmpQ fuel l q
    | .eq => some (some v)
    | .gt => Tree.findF cmpQ fuel r q

/-- `insert` with an explicit step budget. -/
def Tree.insertF (cmp : Cmp K) :
    Nat → Tree K V → K → V → Option (Option V × Tree K V)
  | 0, _, _, _ => none
  | _ + 1, .leaf, k, v => some (none, .node .leaf k v .leaf)
  | fuel + 1, .node l k0 v0 r, k, v =>
    match cmp k k0 with
    | .lt =>
      match Tree.insertF cmp fuel l k v with
      | some p => some (p.1, .node p.2 k0 v0 r)
      | none => none
    | .eq => some (some v0, .node l k v r)
    | .gt =>
      match Tree.insertF cmp fuel r k v with
      | some p => some (p.1, .node l k0 v0 p.2)
      | none => none

/-- `removeMin` with an explicit step budget. -/
def Tree.removeMinF : Nat → Tree K V → Option (Option (K × V × Tree K V))
  | 0, _ => none
  | _ + 1, .leaf => some none
  | fuel + 1, .node l k v r =>
    match Tree.removeMinF fuel l with
    | none => none
    | some none => some (some (k, v, r))
    | some (some (k0, v0, l2)) => some (some (k0, v0, .node l2 k v r))

/-- `glue` with an explicit step budget. -/
def Tree.glueF (fuel : Nat) (l r : Tree K V) : Option (Tree K V) :=
  match Tree.removeMinF fuel r with
  | none => none
  | some none => some l
  | some (some (k, v, r2)) => some (.node l k v r2)

/-- `remove` with an explicit step budget. -/
def Tree.removeF (cmpQ : Q → K → Ordering) :
    Nat → Tree K V → Q → Option (Option V × Tree K V)
  | 0, _, _ => none
  | _ + 1, .leaf, _ => some (none, .leaf)
  | fuel + 1, .node l k v r, q =>
    match cmpQ q k with
    | .lt =>
      match Tree.removeF cmpQ fuel l q with
      | some p => some (p.1, .node p.2 k v r)
      | none => none
    | .eq =>
      match Tree.glueF fuel l r with
      | some g => some (some v, g)
      | none => none
    | .gt =>
      match Tree.removeF cmpQ fuel r q with
      | some p => some (p.1, .node l k v p.2)
      | none => none

/-- In-order traversal (iteration, and the walk performed by destruction)
with an explicit step budget. -/
def Tree.toListF : Nat → Tree K V → Option (List (K × V))
  | 0, _ => none
  | _ + 1, .leaf => some []
  | fuel + 1, .node l k v r =>
    match Tree.toListF fuel l, Tree.toListF fuel r with
    | some a, some b => some (a ++ (k, v) :: b)
    | _, _ => none

/-- `extend` with an explicit budget on the number of processed elements. -/
def Tree.extendF (cmp : Cmp K) :
    Nat → Tree K V → List (K × V) → Option (Tree K V)
  | 0, _, _ => none
  | _ + 1, t, [] => some t
  | fuel + 1, t, e :: es => Tree.extendF cmp fuel (Tree.insert cmp t e.1 e.2).2 es

/-- `index` with an explicit step budget. -/
def Tree.indexF (cmpQ : Q → K → Ordering) (fuel : Nat) (t : Tree K V) (q : Q) :
    Option (IndexResult V) :=
  match Tree.findF cmpQ fuel t q with
  | none => none
  | some (some v) => some (.ok v)
  | some none => some .fault

/-- Merge union with an explicit step budget. -/
def listUnionF (cmp : Cmp K) : Nat → List K → List K → Option (List K)
  | 0, _, _ => none
  | _ + 1, [], ys => some ys
  | _ + 1, x :: xs, [] => some (x :: xs)
  | fuel + 1, x :: xs, y :: ys =>
    match cmp x y with
    | .lt =>
      match listUnionF cmp fuel xs (y :: ys) with
      | some zs => some (x :: zs)
      | none => none
    | .eq =>
      match listUnionF cmp fuel xs ys with
      | some zs => some (x :: zs)
      | none => none
    | .gt =>
      match listUnionF cmp fuel (x :: xs) ys with
      | some zs => some (y :: zs)
      | none => none

/-- Merge intersection with an explicit step budget. -/
def listInterF (cmp : Cmp K) : Nat → List K → List K → Option (List K)
  | 0, _, _ => none
  | _ + 1, [], _ => some []
  | _ + 1, _ :: _, [] => some []
  | fuel + 1, x :: xs, y :: ys =>
    match cmp x y with
    | .lt => listInterF cmp fuel xs (y :: ys)
    | .eq =>
      match listInterF cmp fuel xs ys with
      | some zs => some (x :: zs)
      | none => none
    | .gt => listInterF cmp fuel (x :: xs) ys

/-- Merge difference with an explicit step budget. -/
def listDiffF (cmp : Cmp K) : Nat → List K → List K → Option (List K)
  | 0, _, _ => none
  | _ + 1, [], _ => some []
  | _ + 1, x :: xs, [] => some (x :: xs)
  | fuel + 1, x :: xs, y :: ys =>
    match cmp x y with
    | .lt =>
      match listDiffF cmp fuel xs (y :: ys) with
      | some zs => some (x :: zs)
      | none => none
    | .eq => listDiffF cmp fuel xs ys
    | .gt => listDiffF cmp fuel (x :: xs) ys

theorem Tree.findF_eq {cmpQ : Q → K → Ordering} :
    ∀ {fuel : Nat} (t : Tree K V) (q : Q), t.size < fuel →
      Tree.findF cmpQ fuel t q = some (Tree.find cmpQ t q) := by
  intro fuel t
  induction t generalizing fuel with
  | leaf =>
    intro q h
    cases fuel with
    | zero => omega
    | succ n => rfl
  | node l k v r ihl ihr =>
    intro q h
    cases fuel with
    | zero => omega
    | succ n =>
      have hl : l.size < n := by simp [Tree.size] at h; omega
      have hr : r.size < n := by simp [Tree.size] at h; omega
      cases hcmp : cmpQ q k <;>
        simp [Tree.findF, Tree.find, hcmp, ihl _ hl, ihr _ hr]

theorem Tree.insertF_eq {cmp : Cmp K} :
    ∀ {fuel : Nat} (t : Tree K V) (k : K) (v : V), t.size < fuel →
      Tree.insertF cmp fuel t k v = some (Tree.insert cmp t k v) := by
  intro fuel t
  induction t generalizing fuel with
  | leaf =>
    intro k v h
    cases fuel with
    | zero => omega
    | succ n => rfl
  | node l k0 v0 r ihl ihr =>
    intro k v h
    cases fuel with
    | zero => omega
    | succ n =>
      have hl : l.size < n := by simp [Tree.size] at h; omega
      have hr : r.size < n := by simp [Tree.size] at h; omega
      cases hcmp : cmp k k0 <;>
        simp [Tree.insertF, Tree.insert, hcmp, ihl _ _ hl, ihr _ _ hr]

theorem Tree.removeMinF_eq :
    ∀ {fuel : Nat} (t : Tree K V), t.size < fuel →
      Tree.removeMinF fuel t = some (Tree.removeMin t) := by
  intro fuel t
  induction t generalizing fuel with
  | leaf =>
    intro h
    cases fuel with
    | zero => omega
    | succ n => rfl
  | node l k v r ihl ihr =>
    intro h
    cases fuel with
    | zero => omega
    | succ n =>
      have hl : l.size < n := by simp [Tree.size] at h; omega
      cases hm : Tree.removeMin l with
      | none => simp [Tree.removeMinF, Tree.removeMin, ihl hl, hm]
      | some p =>
        obtain ⟨k0, v0, l2⟩ := p
        simp [Tree.removeMinF, Tree.removeMin, ihl hl, hm]

theorem Tree.glueF_eq {fuel : Nat} (l r : Tree K V) (h : r.size < fuel) :
    Tree.glueF fuel l r = some (Tree.glue l r) := by
  rw [Tree.glueF, Tree.glue, Tree.removeMinF_eq r h]
  cases hm : Tree.removeMin r with
  | none => rfl
  | some p => obtain ⟨k, v, r2⟩ := p; rfl

theorem Tree.removeF_eq {cmpQ : Q → K → Ordering} :
    ∀ {fuel : Nat} (t : Tree K V) (q : Q), t.size < fuel →
      Tree.removeF cmpQ fuel t q = some (Tree.remove cmpQ t q) := by
  intro fuel t
  induction t generalizing fuel with
  | leaf =>
    intro q h
    cases fuel with
    | zero => omega
    | succ n => rfl
  | node l k v r ihl ihr =>
    intro q h
    cases fuel with
    | zero => omega
    | succ n =>
      have hl : l.size < n := by simp [Tree.size] at h; omega
      have hr : r.size < n := by simp [Tree.size] at h; omega
      cases hcmp : cmpQ q k with
      | lt => simp [Tree.removeF, Tree.remove, hcmp, ihl _ hl]
      | eq => simp [Tree.removeF, Tree.remove, hcmp, Tree.glueF_eq l r hr]
      | gt => simp [Tree.removeF, Tree.remove, hcmp, ihr _ hr]

theorem Tree.toListF_eq :
    ∀ {fuel : Nat} (t : Tree K V), t.size < fuel →
      Tree.toListF fuel t = some t.toList := by
  intro fuel t
  induction t generalizing fuel with
  | leaf =>
    intro h
    cases fuel with
    | zero => omega
    | succ n => rfl
  | node l k v r ihl ihr =>
    intro h
    cases fuel with
    | zero => omega
    | succ n =>
      have hl : l.size < n := by simp [Tree.size] at h; omega
      have hr : r.size < n := by simp [Tree.size] at h; omega
      simp [Tree.toListF, Tree.toList, ihl hl, ihr hr]

theorem Tree.extendF_eq {cmp : Cmp K} :
    ∀ (s : List (K × V)) {fuel : Nat} (t : Tree K V), s.length < fuel →
      Tree.extendF cmp fuel t s = some (Tree.extend cmp t s) := by
  intro s
  induction s with
  | nil =>
    intro fuel t h
    cases fuel with
    | zero => omega
    | succ n => rfl
  | cons e es ih =>
    intro fuel t h
    cases fuel with
    | zero => omega
    | succ n =>
      have hn : es.length < n := by simp at h; omega
      rw [show Tree.extendF cmp (n + 1) t (e :: es)
          = Tree.extendF cmp n (Tree.insert cmp t e.1 e.2).2 es from rfl]
      rw [ih _ hn]
      rfl

theorem Tree.indexF_eq {cmpQ : Q → K → Ordering} {fuel : Nat} (t : Tree K V)
    (q : Q) (h : t.size < fuel) :
    Tree.indexF cmpQ fuel t q = some (Tree.index cmpQ t q) := by
  rw [Tree.indexF, Tree.index, Tree.findF_eq t q h]
  cases Tree.find cmpQ t q <;> rfl

theorem listUnionF_eq {cmp : Cmp K} :
    ∀ (a b : List K) {fuel : Nat}, a.length + b.length < fuel →
      listUnionF cmp fuel a b = some (listUnion cmp a b) := by
  intro a
  induction a with
  | nil =>
    intro b fuel h
    cases fuel with
    | zero => omega
    | succ n => rw [show listUnionF cmp (n + 1) [] b = some b from rfl, listUnion]
  | cons x xs ih =>
    intro b
    induction b with
    | nil =>
      intro fuel h
      cases fuel with
      | zero => omega
      | succ n =>
        rw [show listUnionF cmp (n + 1) (x :: xs) [] = some (x :: xs) from rfl,
          listUnion]
    | cons y ys ihb =>
      intro fuel h
      cases fuel with
      | zero => omega
      | succ n =>
        simp only [List.length_cons] at h
        cases hxy : cmp x y with
        | lt =>
          rw [show listUnion cmp (x :: xs) (y :: ys)
              = x :: listUnion cmp xs (y :: ys) by simp [listUnion, hxy]]
          have hrec := ih (y :: ys)
            (show xs.length + (y :: ys).length < n by simp; omega)
          simp [listUnionF, hxy, hrec]
        | eq =>
          rw [show listUnion cmp (x :: xs) (y :: ys)
              = x :: listUnion cmp xs ys by simp [listUnion, hxy]]
          have hrec := ih ys (show xs.length + ys.length < n by omega)
          simp [listUnionF, hxy, hrec]
        | gt =>
          rw [show listUnion cmp (x :: xs) (y :: ys)
              = y :: listUnion cmp (x :: xs) ys by simp [listUnion, hxy]]
          have hrec := ihb (show (x :: xs).length + ys.length < n by simp; omega)
          simp [listUnionF, hxy, hrec]

theorem listInterF_eq {cmp : Cmp K} :
    ∀ (a b : List K) {fuel : Nat}, a.length + b.length < fuel →
      listInterF cmp fuel a b = some (listInter cmp a b) := by
  intro a
  induction a with
  | nil =>
    intro b fuel h
    cases fuel with
    | zero => omega
    | succ n => rw [show listInterF cmp (n + 1) [] b = some [] from rfl, listInter]
  | cons x xs ih =>
    intro b
    induction b with
    | nil =>
      intro fuel h
      cases fuel with
      | zero => omega
      | succ n =>
        rw [show listInterF cmp (n + 1) (x :: xs) [] = some [] from rfl]
        rw [show listInter cmp (x :: xs) [] = [] by simp [listInter]]
    | cons y ys ihb =>
      intro fuel h
      cases fuel with
      | zero => omega
      | succ n =>
        simp only [List.length_cons] at h
        cases hxy : cmp x y with
        | lt =>
          rw [show listInter cmp (x :: xs) (y :: ys)
              = listInter cmp xs (y :: ys) by simp [listInter, hxy]]
          have hrec := ih (y :: ys)
            (show xs.length + (y :: ys).length < n by simp; omega)
          simp [listInterF, hxy, hrec]
        | eq =>
          rw [show listInter cmp (x :: xs) (y :: ys)
              = x :: listInter cmp xs ys by simp [listInter, hxy]]
          have hrec := ih ys (show xs.length + ys.length < n by omega)
          simp [listInterF, hxy, hrec]
        | gt =>
          rw [show listInter cmp (x :: xs) (y :: ys)
              = listInter cmp (x :: xs) ys by simp [listInter, hxy]]
          have hrec := ihb (show (x :: xs).length + ys.length < n by simp; omega)
          simp [listInterF, hxy, hrec]

theorem listDiffF_eq {cmp : Cmp K} :
    ∀ (a b : List K) {fuel : Nat}, a.length + b.length < fuel →
      listDiffF cmp fuel a b = some (listDiff cmp a b) := by
  intro a
  induction a with
  | nil =>
    intro b fuel h
    cases fuel with
    | zero => omega
    | succ n => rw [show listDiffF cmp (n + 1) [] b = some [] from rfl, listDiff]
  | cons x xs ih =>
    intro b
    induction b with
    | nil =>
      intro fuel h
      cases fuel with
      | zero => omega
      | succ n =>
        rw [show listDiffF cmp (n + 1) (x :: xs) [] = some (x :: xs) from rfl]
        rw [show listDiff cmp (x :: xs) [] = x :: xs by simp [listDiff]]
    | cons y ys ihb =>
      intro fuel h
      cases fuel with
      | zero => omega
      | succ n =>
        simp only [List.length_cons] at h
        cases hxy : cmp x y with
        | lt =>
          rw [show listDiff cmp (x :: xs) (y :: ys)
              = x :: listDiff cmp xs (y :: ys) by simp [listDiff, hxy]]
          have hrec := ih (y :: ys)
            (show xs.length + (y :: ys).length < n by simp; omega)
          simp [listDiffF, hxy, hrec]
        | eq =>
          rw [show listDiff cmp (x :: xs) (y :: ys)
              = listDiff cmp xs ys by simp [listDiff, hxy]]
          have hrec := ih ys (show xs.length + ys.length < n by omega)
          simp [listDiffF, hxy, hrec]
        | gt =>
          rw [show listDiff cmp (x :: xs) (y :: ys)
              = listDiff cmp (x :: xs) ys by simp [listDiff, hxy]]
          have hrec := ihb (show (x :: xs).length + ys.length < n by simp; omega)
          simp [listDiffF, hxy, hrec]

theorem Tree.bst_applyOp {cmp : Cmp K} (hc : IsComparator cmp) {t : Tree K V}
    (ht : BST cmp t) (op : Op K V) : BST cmp (Tree.applyOp cmp t op) := by
  cases op with
  | ins k v => exact Tree.bst_insert hc ht k v
  | del k => exact Tree.bst_remove hc ht k

theorem Tree.bst_applyOps {cmp : Cmp K} (hc : IsComparator cmp) :
    ∀ (ops : List (Op K V)) {t : Tree K V}, BST cmp t →
      BST cmp (Tree.applyOps cmp t ops) := by
  intro ops
  induction ops with
  | nil => intro t ht; exact ht
  | cons op rest ih =>
    intro t ht
    rw [show Tree.applyOps cmp t (op :: rest)
        = Tree.applyOps cmp (Tree.applyOp cmp t op) rest from rfl]
    exact ih (Tree.bst_applyOp hc ht op)

theorem Tree.bst_singleton {cmp : Cmp K} (k : K) (v : V) :
    BST cmp (Tree.node Tree.leaf k v Tree.leaf) :=
  BST.node BST.leaf BST.leaf
    (by intro x hx; simp [Tree.keys, Tree.toList] at hx)
    (by intro x hx; simp [Tree.keys, Tree.toList] at hx)

theorem Tree.extend_eq_foldl (cmp : Cmp K) :
    ∀ (s : List (K × V)) (t : Tree K V),
      Tree.extend cmp t s
        = s.foldl (fun acc e => (Tree.insert cmp acc e.1 e.2).2) t := by
  intro s
  induction s with
  | nil => intro t; rfl
  | cons e es ih =>
    intro t
    rw [Tree.extend, List.foldl]
    exact ih _

theorem Tree.extend_append (cmp : Cmp K) :
    ∀ (s1 s2 : List (K × V)) (t : Tree K V),
      Tree.extend cmp t (s1 ++ s2)
        = Tree.extend cmp (Tree.extend cmp t s1) s2 := by
  intro s1
  induction s1 with
  | nil => intro s2 t; rfl
  | cons e es ih =>
    intro s2 t
    rw [List.cons_append, Tree.extend, Tree.extend]
    exact ih _ _

theorem bool_eq_of_iff {p q : Bool} (h : p = true ↔ q = true) : p = q := by
  cases p <;> cases q <;> simp_all

/-- Concrete comparator on pairs ordered by first component, used to exercise
heterogeneous lookup with a query type different from the key type. -/
def pairCmp : Cmp (Nat × Nat) := fun a b => natCmp a.1 b.1

/-- Concrete heterogeneous query comparator: a bare `Nat` query against a
pair key. -/
def pairQCmp (q : Nat) (k : Nat × Nat) : Ordering := natCmp q k.1

theorem pair_hetCompat : HetCompat pairCmp pairQCmp where
  lt_lt := fun q a b h1 h2 => natCmp_isComparator.toHetCompat.lt_lt q a.1 b.1 h1 h2
  lt_gt := fun q a b h1 h2 => natCmp_isComparator.toHetCompat.lt_gt q a.1 b.1 h1 h2
  eq_lt := fun q a b h1 h2 => natCmp_isComparator.toHetCompat.eq_lt q a.1 b.1 h1 h2
  lt_eq := fun q a b h1 h2 => natCmp_isComparator.toHetCompat.lt_eq q a.1 b.1 h1 h2

/-- Concrete sets A = {1,2,3} and B = {2,3,4} from the spec's example. -/
def setA : TreeSet Nat (Cmp Nat) := ⟨natCmp, Tree.fromKeyList [1, 2, 3]⟩

/-- Second concrete example set. -/
def setB : TreeSet Nat (Cmp Nat) := ⟨natCmp, Tree.fromKeyList [2, 3, 4]⟩

/-- C1: for every sequence of insertions and removals applied to the initially
empty tree, the resulting tree satisfies the node-wise ordering invariant
(left-subtree keys compare less than the node key, right-subtree keys greater),
and its in-order key sequence is pairwise strictly ascending under the
comparator — in particular no two keys compare equal. -/
theorem ordered_invariant {cmp : Cmp K} (hc : IsComparator cmp)
    (ops : List (Op K V)) :
    BST cmp (Tree.applyOps cmp Tree.leaf ops)
      ∧ List.Pairwise (fun a b => cmp a b = Ordering.lt)
        (Tree.applyOps cmp Tree.leaf ops).keys := by
  have hb := Tree.bst_applyOps hc ops BST.leaf
  exact ⟨hb, Tree.bst_pairwise hc hb⟩

theorem ordered_invariant_witness :
    IsComparator natCmp
      ∧ (BST natCmp (Tree.applyOps natCmp Tree.leaf
            [Op.ins 2 20, Op.ins 1 10, Op.ins 3 30, Op.del 2, Op.ins 2 21])
        ∧ List.Pairwise (fun a b => natCmp a b = Ordering.lt)
            (Tree.applyOps natCmp Tree.leaf
              [Op.ins 2 20, Op.ins 1 10, Op.ins 3 30, Op.del 2,
                Op.ins 2 21]).keys) :=
  ⟨natCmp_isComparator, ordered_invariant natCmp_isComparator _⟩

/-- C2: on a well-formed tree, if the key is absent `insert` returns the empty
marker, grows the size by one and creates the (single) entry; if the key is
present with value `v0`, `insert k v1` returns `some v0`, leaves the size
unchanged, and leaves exactly one entry for the key, holding `v1`. -/
theorem insert_spec {cmp : Cmp K} (hc : IsComparator cmp) {t : Tree K V}
    (ht : BST cmp t) (k : K) :
    (Tree.find cmp t k = none →
      ∀ v : V, (Tree.insert cmp t k v).1 = none
        ∧ (Tree.insert cmp t k v).2.size = t.size + 1
        ∧ Tree.find cmp (Tree.insert cmp t k v).2 k = some v
        ∧ Tree.countKey cmp (Tree.insert cmp t k v).2 k = 1)
    ∧ ∀ v0 : V, Tree.find cmp t k = some v0 →
        ∀ v1 : V, (Tree.insert cmp t k v1).1 = some v0
          ∧ (Tree.insert cmp t k v1).2.size = t.size
          ∧ Tree.find cmp (Tree.insert cmp t k v1).2 k = some v1
          ∧ Tree.countKey cmp (Tree.insert cmp t k v1).2 k = 1 := by
  constructor
  · intro hnone v
    refine ⟨?_, ?_, Tree.find_insert_self hc t k v, ?_⟩
    · rw [Tree.insert_fst_eq_find]; exact hnone
    · rw [Tree.size_insert, hnone]; rfl
    · rw [Tree.countKey_eq hc (Tree.bst_insert hc ht k v) k,
        Tree.find_insert_self hc t k v]
      rfl
  · intro v0 hsome v1
    refine ⟨?_, ?_, Tree.find_insert_self hc t k v1, ?_⟩
    · rw [Tree.insert_fst_eq_find]; exact hsome
    · rw [Tree.size_insert, hsome]; rfl
    · rw [Tree.countKey_eq hc (Tree.bst_insert hc ht k v1) k,
        Tree.find_insert_self hc t k v1]
      rfl

theorem insert_spec_witness :
    IsComparator natCmp
      ∧ BST natCmp (Tree.node Tree.leaf 5 7 Tree.leaf)
      ∧ Tree.find natCmp (Tree.node Tree.leaf 5 7 Tree.leaf) 5 = some 7
      ∧ ((Tree.insert natCmp (Tree.node Tree.leaf 5 7 Tree.leaf) 5 9).1 = some 7
        ∧ (Tree.insert natCmp (Tree.node Tree.leaf 5 7 Tree.leaf) 5 9).2.size
            = (Tree.node Tree.leaf 5 7 Tree.leaf : Tree Nat Nat).size
        ∧ Tree.find natCmp
            (Tree.insert natCmp (Tree.node Tree.leaf 5 7 Tree.leaf) 5 9).2 5
            = some 9
        ∧ Tree.countKey natCmp
            (Tree.insert natCmp (Tree.node Tree.leaf 5 7 Tree.leaf) 5 9).2 5
            = 1) :=
  ⟨natCmp_isComparator, Tree.bst_singleton 5 7, by decide,
    (insert_spec natCmp_isComparator (Tree.bst_singleton 5 7) 5).2 7
      (by decide) 9⟩

/-- C3: for two well-formed sets sharing a lawful comparator, the union
contains exactly the keys in A or B, the intersection exactly those in both,
the difference exactly those in A and not in B; and each agrees, at the level
of key membership, with the corresponding reference (filter-based sorted-list)
implementation. -/
theorem set_algebra (A B : TreeSet K (Cmp K)) (hc : IsComparator A.cmp)
    (hB : B.cmp = A.cmp)
    (hbA : BST A.cmp A.root) (hbB : BST A.cmp B.root) (x : K) :
    ((TreeSet.union A B).mem x = (A.mem x || B.mem x)
      ∧ (TreeSet.inter A B).mem x = (A.mem x && B.mem x)
      ∧ (TreeSet.sdiff A B).mem x = (A.mem x && !(B.mem x)))
    ∧ (MemEq A.cmp x (TreeSet.union A B).root.keys
        ↔ MemEq A.cmp x (refUnion A.cmp A.root.keys B.root.keys))
    ∧ (MemEq A.cmp x (TreeSet.inter A B).root.keys
        ↔ MemEq A.cmp x (refInter A.cmp A.root.keys B.root.keys))
    ∧ (MemEq A.cmp x (TreeSet.sdiff A B).root.keys
        ↔ MemEq A.cmp x (refDiff A.cmp A.root.keys B.root.keys)) := by
  have pwA := Tree.bst_pairwise hc hbA
  have pwB := Tree.bst_pairwise hc hbB
  have memA : A.mem x = true ↔ MemEq A.cmp x A.root.keys := by
    show (Tree.find A.cmp A.root x).isSome = true ↔ _
    rw [Tree.find_isSome_iff hc.toHetCompat hbA x]
    exact Iff.rfl
  have memB : B.mem x = true ↔ MemEq A.cmp x B.root.keys := by
    show (Tree.find B.cmp B.root x).isSome = true ↔ _
    rw [hB, Tree.find_isSome_iff hc.toHetCompat hbB x]
    exact Iff.rfl
  have memU : (TreeSet.union A B).mem x = true
      ↔ MemEq A.cmp x (listUnion A.cmp A.root.keys B.root.keys) := by
    show (Tree.find A.cmp
      (Tree.fromKeyList (listUnion A.cmp A.root.keys B.root.keys)) x).isSome
        = true ↔ _
    rw [Tree.find_isSome_iff hc.toHetCompat
        (Tree.bst_fromKeyList (listUnion_pairwise hc _ _ pwA pwB)) x,
      Tree.keys_fromKeyList]
    exact Iff.rfl
  have memI : (TreeSet.inter A B).mem x = true
      ↔ MemEq A.cmp x (listInter A.cmp A.root.keys B.root.keys) := by
    show (Tree.find A.cmp
      (Tree.fromKeyList (listInter A.cmp A.root.keys B.root.keys)) x).isSome
        = true ↔ _
    rw [Tree.find_isSome_iff hc.toHetCompat
        (Tree.bst_fromKeyList
          (List.Pairwise.sublist (listInter_sublist _ _) pwA)) x,
      Tree.keys_fromKeyList]
    exact Iff.rfl
  have memD : (TreeSet.sdiff A B).mem x = true
      ↔ MemEq A.cmp x (listDiff A.cmp A.root.keys B.root.keys) := by
    show (Tree.find A.cmp
      (Tree.fromKeyList (listDiff A.cmp A.root.keys B.root.keys)) x).isSome
        = true ↔ _
    rw [Tree.find_isSome_iff hc.toHetCompat
        (Tree.bst_fromKeyList
          (List.Pairwise.sublist (listDiff_sublist _ _) pwA)) x,
      Tree.keys_fromKeyList]
    exact Iff.rfl
  refine ⟨⟨?_, ?_, ?_⟩, ?_, ?_, ?_⟩
  · apply bool_eq_of_iff
    rw [memU, Bool.or_eq_true, memA, memB]
    exact listUnion_memEq hc x _ _
  · apply bool_eq_of_iff
    rw [memI, Bool.and_eq_true, memA, memB]
    exact listInter_memEq hc x _ _ pwA pwB
  · apply bool_eq_of_iff
    rw [memD, Bool.and_eq_true, Bool.not_eq_true', memA]
    rw [listDiff_memEq hc x _ _ pwA pwB]
    have : B.mem x = false ↔ ¬ MemEq A.cmp x B.root.keys := by
      rw [← memB]
      cases B.mem x <;> simp
    rw [this]
  · rw [show (TreeSet.union A B).root.keys
        = listUnion A.cmp A.root.keys B.root.keys by
      rw [TreeSet.union, Tree.keys_fromKeyList],
      listUnion_memEq hc x _ _, refUnion_memEq hc x _ _]
  · rw [show (TreeSet.inter A B).root.keys
        = listInter A.cmp A.root.keys B.root.keys by
      rw [TreeSet.inter, Tree.keys_fromKeyList],
      listInter_memEq hc x _ _ pwA pwB, refInter_memEq hc x _ _]
  · rw [show (TreeSet.sdiff A B).root.keys
        = listDiff A.cmp A.root.keys B.root.keys by
      rw [TreeSet.sdiff, Tree.keys_fromKeyList],
      listDiff_memEq hc x _ _ pwA pwB, refDiff_memEq hc x _ _]

theorem set_algebra_witness :
    IsComparator setA.cmp ∧ setB.cmp = setA.cmp
      ∧ BST setA.cmp setA.root ∧ BST setA.cmp setB.root
      ∧ (((TreeSet.union setA setB).mem 1 = (setA.mem 1 || setB.mem 1)
          ∧ (TreeSet.inter setA setB).mem 1 = (setA.mem 1 && setB.mem 1)
          ∧ (TreeSet.sdiff setA setB).mem 1 = (setA.mem 1 && !(setB.mem 1)))
        ∧ (MemEq setA.cmp 1 (TreeSet.union setA setB).root.keys
            ↔ MemEq setA.cmp 1 (refUnion setA.cmp setA.root.keys setB.root.keys))
        ∧ (MemEq setA.cmp 1 (TreeSet.inter setA setB).root.keys
            ↔ MemEq setA.cmp 1 (refInter setA.cmp setA.root.keys setB.root.keys))
        ∧ (MemEq setA.cmp 1 (TreeSet.sdiff setA setB).root.keys
            ↔ MemEq setA.cmp 1 (refDiff setA.cmp setA.root.keys setB.root.keys))) :=
  ⟨natCmp_isComparator, rfl, Tree.bst_fromKeyList (by decide),
    Tree.bst_fromKeyList (by decide),
    set_algebra setA setB natCmp_isComparator rfl
      (Tree.bst_fromKeyList (by decide)) (Tree.bst_fromKeyList (by decide)) 1⟩

/-- C4: when the query's key is absent (in particular on the empty tree),
`index` takes the faulting path while `find` returns the empty marker and, by
its very type, never faults; when the key is present both return the value. -/
theorem index_spec (cmpQ : Q → K → Ordering) (t : Tree K V) (q : Q) :
    (Tree.find cmpQ t q = none → Tree.index cmpQ t q = IndexResult.fault)
    ∧ (∀ v, Tree.find cmpQ t q = some v → Tree.index cmpQ t q = IndexResult.ok v)
    ∧ (∀ v, Tree.index cmpQ t q = IndexResult.ok v ↔ Tree.find cmpQ t q = some v)
    ∧ Tree.index cmpQ (Tree.leaf : Tree K V) q = IndexResult.fault
    ∧ Tree.find cmpQ (Tree.leaf : Tree K V) q = none := by
  refine ⟨?_, ?_, ?_, rfl, rfl⟩
  · intro h; rw [Tree.index, h]
  · intro v h; rw [Tree.index, h]
  · intro v
    rw [Tree.index]
    cases h : Tree.find cmpQ t q <;> simp

theorem index_spec_witness :
    Tree.find natCmp (Tree.node Tree.leaf 5 7 Tree.leaf) 3 = none
      ∧ Tree.index natCmp (Tree.node Tree.leaf 5 7 Tree.leaf) 3
          = IndexResult.fault :=
  ⟨by decide,
    (index_spec natCmp (Tree.node Tree.leaf 5 7 Tree.leaf) 3).1 (by decide)⟩

/-- C5: building a tree by inserting a finite list of entries and then
removing all the inserted keys, in any order, yields the empty tree: the
traversal is empty, the size is zero, and every subsequent `find` returns the
empty marker; moreover `remove` always returns exactly what `find` returns
(the stored value when present, the empty marker when absent, silently). -/
theorem remove_roundtrip {cmp : Cmp K} (hc : IsComparator cmp)
    (kvs : List (K × V)) (rs : List K) (hperm : rs.Perm (kvs.map Prod.fst)) :
    ((Tree.removeAll cmp (Tree.extend cmp Tree.leaf kvs) rs).toList = []
      ∧ (Tree.removeAll cmp (Tree.extend cmp Tree.leaf kvs) rs).size = 0
      ∧ ∀ q : K, Tree.find cmp
          (Tree.removeAll cmp (Tree.extend cmp Tree.leaf kvs) rs) q = none)
    ∧ (∀ (u : Tree K V) (q : K), (Tree.remove cmp u q).1 = Tree.find cmp u q) := by
  have hbst := Tree.bst_extend hc kvs BST.leaf
  have hcov : ∀ x ∈ (Tree.extend cmp Tree.leaf kvs).keys,
      ∃ j ∈ rs, cmp j x = Ordering.eq := by
    intro x hx
    rcases Tree.keys_extend_sub kvs Tree.leaf x hx with h | h
    · simp [Tree.keys, Tree.toList] at h
    · exact ⟨x, hperm.mem_iff.mpr h, hc.refl x⟩
  have hnil := Tree.removeAll_toList_nil hc rs hbst hcov
  have hleaf : Tree.removeAll cmp (Tree.extend cmp Tree.leaf kvs) rs = Tree.leaf :=
    Tree.toList_eq_nil hnil
  refine ⟨⟨hnil, ?_, ?_⟩, fun u q => Tree.remove_fst_eq_find cmp u q⟩
  · rw [Tree.size_eq_length, hnil]; rfl
  · intro q; rw [hleaf]; rfl

theorem remove_roundtrip_witness :
    IsComparator natCmp
      ∧ ([8, 5, 3] : List Nat).Perm
          (([(5, 50), (3, 30), (8, 80)] : List (Nat × Nat)).map Prod.fst)
      ∧ (((Tree.removeAll natCmp
            (Tree.extend natCmp Tree.leaf [(5, 50), (3, 30), (8, 80)])
            [8, 5, 3]).toList = []
        ∧ (Tree.removeAll natCmp
            (Tree.extend natCmp Tree.leaf [(5, 50), (3, 30), (8, 80)])
            [8, 5, 3]).size = 0
        ∧ ∀ q : Nat, Tree.find natCmp
            (Tree.removeAll natCmp
              (Tree.extend natCmp Tree.leaf [(5, 50), (3, 30), (8, 80)])
              [8, 5, 3]) q = none)
        ∧ (∀ (u : Tree Nat Nat) (q : Nat),
            (Tree.remove natCmp u q).1 = Tree.find natCmp u q)) :=
  ⟨natCmp_isComparator, by decide,
    remove_roundtrip natCmp_isComparator [(5, 50), (3, 30), (8, 80)] [8, 5, 3]
      (by decide)⟩

/-- C6: `extend` is exactly the left fold of single-element `insert` over the
sequence, in order, for the map and for the set; in particular the effect of a
prefix persists (no batch atomicity: processing `s1 ++ s2` is processing `s1`
and then `s2` on the already-updated tree). -/
theorem extend_spec (cmp : Cmp K) (t : Tree K V) (s s1 s2 : List (K × V))
    (u : TreeSet K (Cmp K)) (l : List K) :
    Tree.extend cmp t s
        = s.foldl (fun acc e => (Tree.insert cmp acc e.1 e.2).2) t
    ∧ Tree.extend cmp t (s1 ++ s2)
        = Tree.extend cmp (Tree.extend cmp t s1) s2
    ∧ (TreeSet.extend u l).root
        = (l.map (fun k => (k, ()))).foldl
            (fun acc e => (Tree.insert u.cmp acc e.1 e.2).2) u.root :=
  ⟨Tree.extend_eq_foldl cmp s t, Tree.extend_append cmp s1 s2 t,
    Tree.extend_eq_foldl u.cmp _ u.root⟩

/-- C7: lookup accepts a query of a type `Q` different from the key type `K`
whenever a compatible heterogeneous comparator exists, and returns exactly the
value whose key compares equal to the query — no conversion of the query into
a key occurs (the functions consume `Q` directly). `index` is the faulting
face of the same lookup. -/
theorem het_lookup_spec {cmp : Cmp K} {cmpQ : Q → K → Ordering}
    (hh : HetCompat cmp cmpQ) {t : Tree K V} (ht : BST cmp t) (q : Q) :
    (∀ v, Tree.find cmpQ t q = some v
      ↔ ∃ k, (k, v) ∈ t.toList ∧ cmpQ q k = Ordering.eq)
    ∧ (Tree.find cmpQ t q = none ↔ ∀ k ∈ t.keys, cmpQ q k ≠ Ordering.eq)
    ∧ (∀ v, Tree.index cmpQ t q = IndexResult.ok v
        ↔ Tree.find cmpQ t q = some v) := by
  refine ⟨fun v => Tree.find_eq_some_iff hh ht q v,
    Tree.find_eq_none_iff hh ht q, ?_⟩
  intro v
  rw [Tree.index]
  cases h : Tree.find cmpQ t q <;> simp

theorem het_lookup_spec_witness :
    HetCompat pairCmp pairQCmp
      ∧ BST pairCmp (Tree.node Tree.leaf (2, 7) 42 Tree.leaf)
      ∧ ((∀ v, Tree.find pairQCmp (Tree.node Tree.leaf (2, 7) 42 Tree.leaf) 2
              = some v
            ↔ ∃ k, (k, v) ∈ (Tree.node Tree.leaf (2, 7) 42 Tree.leaf).toList
                ∧ pairQCmp 2 k = Ordering.eq)
        ∧ (Tree.find pairQCmp (Tree.node Tree.leaf (2, 7) 42 Tree.leaf) 2 = none
            ↔ ∀ k ∈ (Tree.node Tree.leaf (2, 7) 42 Tree.leaf).keys,
                pairQCmp 2 k ≠ Ordering.eq)
        ∧ (∀ v, Tree.index pairQCmp (Tree.node Tree.leaf (2, 7) 42 Tree.leaf) 2
              = IndexResult.ok v
            ↔ Tree.find pairQCmp (Tree.node Tree.leaf (2, 7) 42 Tree.leaf) 2
              = some v)) :=
  ⟨pair_hetCompat, Tree.bst_singleton (2, 7) 42,
    het_lookup_spec pair_hetCompat (Tree.bst_singleton (2, 7) 42) 2⟩

/-- C8: `default()`, available for map and set when the comparator type `C`
itself supplies a default instance, returns the empty tree with the default
comparator: size zero, every lookup (under any query comparator) empty. -/
theorem default_spec (K : Type u) (V : Type v) (C : Type w) [Inhabited C] :
    (TreeMap.default K V C).cmp = Inhabited.default
    ∧ (TreeMap.default K V C).root = Tree.leaf
    ∧ (TreeMap.default K V C).root.size = 0
    ∧ (∀ (Q2 : Type w) (cmpQ : Q2 → K → Ordering) (q : Q2),
        Tree.find cmpQ (TreeMap.default K V C).root q = none)
    ∧ (TreeSet.default K C).cmp = Inhabited.default
    ∧ (TreeSet.default K C).root = Tree.leaf
    ∧ (TreeSet.default K C).root.size = 0
    ∧ (∀ (Q2 : Type w) (cmpQ : Q2 → K → Ordering) (q : Q2),
        Tree.find cmpQ (TreeSet.default K C).root q = none) :=
  ⟨rfl, rfl, rfl, fun _ _ _ => rfl, rfl, rfl, rfl, fun _ _ _ => rfl⟩

theorem default_spec_witness :
    (TreeMap.default Nat Nat (Cmp Nat)).root = Tree.leaf
      ∧ (TreeSet.default Nat (Cmp Nat)).root = Tree.leaf :=
  ⟨(default_spec Nat Nat (Cmp Nat)).2.1,
    (default_spec Nat Nat (Cmp Nat)).2.2.2.2.2.1⟩

/-- C9: every operation terminates on every finite input: run with any step
budget exceeding the tree size (or input length), the budgeted version of each
operation finishes and returns the untimed result — none of `find`, `insert`,
`remove`, `index`, iteration/destruction (`toList`), `extend`, the three
set-algebra merges, or `clear` can run forever. -/
theorem ops_terminate (cmp : Cmp K) (cmpQ : Q → K → Ordering) :
    (∀ (t : Tree K V) (q : Q) (fuel : Nat), t.size < fuel →
        Tree.findF cmpQ fuel t q = some (Tree.find cmpQ t q))
    ∧ (∀ (t : Tree K V) (k : K) (v : V) (fuel : Nat), t.size < fuel →
        Tree.insertF cmp fuel t k v = some (Tree.insert cmp t k v))
    ∧ (∀ (t : Tree K V) (q : Q) (fuel : Nat), t.size < fuel →
        Tree.removeF cmpQ fuel t q = some (Tree.remove cmpQ t q))
    ∧ (∀ (t : Tree K V) (q : Q) (fuel : Nat), t.size < fuel →
        Tree.indexF cmpQ fuel t q = some (Tree.index cmpQ t q))
    ∧ (∀ (t : Tree K V) (fuel : Nat), t.size < fuel →
        Tree.toListF fuel t = some t.toList)
    ∧ (∀ (t : Tree K V) (s : List (K × V)) (fuel : Nat), s.length < fuel →
        Tree.extendF cmp fuel t s = some (Tree.extend cmp t s))
    ∧ (∀ (a b : List K) (fuel : Nat), a.length + b.length < fuel →
        listUnionF cmp fuel a b = some (listUnion cmp a b)
          ∧ listInterF cmp fuel a b = some (listInter cmp a b)
          ∧ listDiffF cmp fuel a b = some (listDiff cmp a b))
    ∧ (∀ t : Tree K V, Tree.clear t = Tree.leaf) :=
  ⟨fun t q _ h => Tree.findF_eq t q h,
    fun t k v _ h => Tree.insertF_eq t k v h,
    fun t q _ h => Tree.removeF_eq t q h,
    fun t q _ h => Tree.indexF_eq t q h,
    fun t _ h => Tree.toListF_eq t h,
    fun t s _ h => Tree.extendF_eq s t h,
    fun a b _ h => ⟨listUnionF_eq a b h, listInterF_eq a b h, listDiffF_eq a b h⟩,
    fun _ => rfl⟩

theorem ops_terminate_witness :
    ((Tree.node Tree.leaf 1 2 Tree.leaf : Tree Nat Nat).size < 2)
      ∧ Tree.findF natCmp 2 (Tree.node Tree.leaf 1 2 Tree.leaf) 1
          = some (Tree.find natCmp (Tree.node Tree.leaf 1 2 Tree.leaf) 1) :=
  ⟨by decide, (ops_terminate natCmp natCmp).1 _ 1 2 (by decide)⟩

/-- C10: `A | B` reads both operands in place (every set stored alongside
them, the operands included, is unchanged by the step), returns a newly built
set appended to the store, whose comparator is the left operand's and whose
every key is a copy of a key of `A` or of `B`. -/
theorem bitor_frame (st : List (TreeSet K (Cmp K))) (i j : Nat)
    (A B : TreeSet K (Cmp K)) (hi : st[i]? = some A) (hj : st[j]? = some B) :
    ((TreeSet.bitOrStep st i j)[i]? = some A)
    ∧ ((TreeSet.bitOrStep st i j)[j]? = some B)
    ∧ (∀ n, n < st.length → (TreeSet.bitOrStep st i j)[n]? = st[n]?)
    ∧ TreeSet.bitOrStep st i j = st ++ [TreeSet.bitOr A B]
    ∧ (TreeSet.bitOr A B).cmp = A.cmp
    ∧ (∀ x ∈ (TreeSet.bitOr A B).root.keys,
        x ∈ A.root.keys ∨ x ∈ B.root.keys) := by
  have hstep : TreeSet.bitOrStep st i j = st ++ [TreeSet.bitOr A B] := by
    rw [TreeSet.bitOrStep, hi, hj]
  have hpre : ∀ n, n < st.length → (TreeSet.bitOrStep st i j)[n]? = st[n]? := by
    intro n hn
    rw [hstep]
    exact List.getElem?_append_left hn
  obtain ⟨hilen, _⟩ := List.getElem?_eq_some.mp hi
  obtain ⟨hjlen, _⟩ := List.getElem?_eq_some.mp hj
  refine ⟨?_, ?_, hpre, hstep, rfl, ?_⟩
  · rw [hpre i hilen]; exact hi
  · rw [hpre j hjlen]; exact hj
  · intro x hx
    rw [show (TreeSet.bitOr A B).root
        = Tree.fromKeyList (listUnion A.cmp A.root.keys B.root.keys) from rfl,
      Tree.keys_fromKeyList] at hx
    exact listUnion_sub _ _ x hx

theorem bitor_frame_witness :
    (([setA, setB] : List (TreeSet Nat (Cmp Nat)))[0]? = some setA)
      ∧ (([setA, setB] : List (TreeSet Nat (Cmp Nat)))[1]? = some setB)
      ∧ (((TreeSet.bitOrStep [setA, setB] 0 1)[0]? = some setA)
        ∧ ((TreeSet.bitOrStep [setA, setB] 0 1)[1]? = some setB)
        ∧ (∀ n, n < ([setA, setB] : List (TreeSet Nat (Cmp Nat))).length →
            (TreeSet.bitOrStep [setA, setB] 0 1)[n]? = [setA, setB][n]?)
        ∧ TreeSet.bitOrStep [setA, setB] 0 1 = [setA, setB] ++ [TreeSet.bitOr setA setB]
        ∧ (TreeSet.bitOr setA setB).cmp = setA.cmp
        ∧ (∀ x ∈ (TreeSet.bitOr setA setB).root.keys,
            x ∈ setA.root.keys ∨ x ∈ setB.root.keys)) :=
  ⟨rfl, rfl, bitor_frame [setA, setB] 0 1 setA setB rfl rfl⟩

end StableBst
